import Mathlib

/-!
The vtu11 writers: data-encoding strategies.

Shallow embedding of `vtu11/inc/writer.hpp` and `vtu11/impl/writer_impl.hpp`.

Conventions of the embedding

* A C++ `char` is a `Byte`; a `std::ostream` is the list of bytes written to it so far.
* `HeaderType` lives in `alias.hpp`; its width in bytes is the parameter `hw` of every
  definition that mentions it, and a conversion to `HeaderType` is a reduction modulo
  `2 ^ (8 * hw)`.
* `size_t` (64 bits on the targets modelled) is `Nat`: the only `size_t` counter,
  `offset`, counts the bytes of one appended block and stays below `2 ^ 64` as long as
  that block is shorter than 16 EiB.
* A `const char*` into caller-owned storage is modelled by the bytes found at that
  address.
* Scalars are laid out least significant byte first, two's complement (LP64 targets).
-/

namespace vtu11

/-! ## Bytes, streams, attribute maps -/

deriving instance DecidableEq for Except

/-- One C++ `char`. -/
abbrev Byte := Fin 256

/-- The content of a `std::ostream`: every byte written so far, oldest first. -/
abbrev Sink := List Byte

/-- The bytes of a string literal, as `output << "..."` writes them. -/
def text (s : String) : List Byte :=
  s.toList.map (fun c => Fin.ofNat c.toNat)

/-- Decimal text of a `size_t`, as `std::to_string` produces it. -/
def to_string (n : Nat) : String :=
  Nat.repr n

/-- The type `StringStringMap` is `std::map<std::string, std::string>`: entries kept in key order,
keys unique. -/
abbrev StringStringMap := List (String × String)

/-- The assignment `attributes[key] = value` of `std::map`. -/
def StringStringMap.assign : StringStringMap → String → String → StringStringMap
  | [], key, value => [(key, value)]
  | (k, v) :: rest, key, value =>
    if key = k then (key, value) :: rest
    else if key.toList < k.toList then (key, value) :: (k, v) :: rest
    else (k, v) :: StringStringMap.assign rest key value

/-- Lookup of a key in a `StringStringMap`. -/
def StringStringMap.find : StringStringMap → String → Option String
  | [], _ => none
  | (k, v) :: rest, key => if key = k then some v else StringStringMap.find rest key

/-! ## Numeric arrays -/

/-- The scalar types an array handed to a writer can have: the ones `writeNumber` is
specialised for, and two it is not specialised for (`signed char`, `float`). -/
inductive CType where
  | double
  | longLong
  | long
  | int
  | short
  | char
  | uLongLong
  | uLong
  | uInt
  | uShort
  | uChar
  | sChar
  | float
  deriving DecidableEq, Repr

/-- The value of `sizeof( T )` on an LP64 target. -/
def CType.sizeof : CType → Nat
  | .double => 8
  | .longLong => 8
  | .long => 8
  | .int => 4
  | .short => 2
  | .char => 1
  | .uLongLong => 8
  | .uLong => 8
  | .uInt => 4
  | .uShort => 2
  | .uChar => 1
  | .sChar => 1
  | .float => 4

/-- The template argument `TIteratorType` of `writeData`: what it points to, and
whether it is a pointer to `const` (as opposed to a pointer to non-const). -/
structure IteratorType where
  pointee : CType
  pointsToConst : Bool
  deriving DecidableEq, Repr

/-- The arguments `begin` and `n` of `writeData`: the `n` scalars found at `begin`,
`begin + 1`, ... Each scalar is given by its value (for a floating point type, by its
bit pattern); only its residue modulo `2 ^ (8 * sizeof T)` is stored. -/
structure NumArray where
  TIteratorType : IteratorType
  elems : List Int
  deriving DecidableEq, Repr

/-- The argument `n`. -/
def NumArray.n (a : NumArray) : Nat :=
  a.elems.length

/-- The value of `sizeof( decltype( *begin ) )`. -/
def NumArray.elemSize (a : NumArray) : Nat :=
  a.TIteratorType.pointee.sizeof

/-- The `w` bytes of the in-memory representation of the unsigned value `v`, least
significant byte first. -/
def memBytes (w v : Nat) : List Byte :=
  (List.range w).map (fun i => Fin.ofNat (v / 256 ^ i))

/-- The in-memory representation of one scalar of type `T`. -/
def scalarBytes (T : CType) (v : Int) : List Byte :=
  memBytes T.sizeof (v % (2 : Int) ^ (8 * T.sizeof)).toNat

/-- The storage `begin` points to: the representations of the `n` scalars, in order. -/
def NumArray.bytes (a : NumArray) : List Byte :=
  a.elems.flatMap (scalarBytes a.TIteratorType.pointee)

/-- Conversion of a `size_t` value to `HeaderType` (`hw` bytes wide, unsigned). -/
def toHeaderType (hw x : Nat) : Nat :=
  x % 2 ^ (8 * hw)

/-- The byte size `n * sizeof( decltype( *begin ) )` of the array fits `HeaderType`. -/
def NumArray.fitsHeaderType (hw : Nat) (a : NumArray) : Prop :=
  a.n * a.elemSize < 2 ^ (8 * hw)

instance (hw : Nat) (a : NumArray) : Decidable (a.fitsHeaderType hw) :=
  inferInstanceAs (Decidable (_ < _))

/-! ## Base64 transcoder -/

/-- Modelled from the spec: the standard base64 alphabet the transcoder
(`Base64EncodedOutput`, declared outside the given sources) writes with. -/
def base64Alphabet : List Byte :=
  text "ABCDEFGHIJKLMNOPQRSTUVWXYZabcdefghijklmnopqrstuvwxyz0123456789+/"

/-- Modelled from the spec: the character of the standard alphabet that stands for the
6-bit value `i`. -/
def base64Char (i : Nat) : Byte :=
  base64Alphabet.getD i 0

/-- Modelled from the spec: the padding character `=` of the standard alphabet. -/
def base64Pad : Byte := 61

/-- Modelled from the spec: the four characters the transcoder writes for one complete
group of three input bytes. -/
def encodeTriplet (a b c : Byte) : List Byte :=
  [base64Char (a.val / 4), base64Char (a.val % 4 * 16 + b.val / 16),
   base64Char (b.val % 16 * 4 + c.val / 64), base64Char (c.val % 64)]

/-- Modelled from the spec: the characters the transcoder writes for all complete 3-byte
groups of the input. -/
def encodeTriplets : List Byte → List Byte
  | a :: b :: c :: rest => encodeTriplet a b c ++ encodeTriplets rest
  | _ => []

/-- Modelled from the spec: the 0 to 2 trailing bytes of the input that do not fill a
3-byte group and stay in the carry buffer of the transcoder. -/
def residualBytes : List Byte → List Byte
  | _ :: _ :: _ :: rest => residualBytes rest
  | r => r

/-- Modelled from the spec: the padded group the transcoder writes for a partial trailing
group, per the padding rule of the standard alphabet; nothing when there is no residual
byte. -/
def encodeResidual : List Byte → List Byte
  | [a] => [base64Char (a.val / 4), base64Char (a.val % 4 * 16), base64Pad, base64Pad]
  | [a, b] =>
    [base64Char (a.val / 4), base64Char (a.val % 4 * 16 + b.val / 16),
     base64Char (b.val % 16 * 4), base64Pad]
  | _ => []

/-- Modelled from the spec: `Base64EncodedOutput` (declared outside the given sources),
a stateful encoder whose internal state is a carry buffer of 0 to 2 unconsumed input
bytes between calls. -/
structure Base64EncodedOutput where
  carry : List Byte := []
  deriving DecidableEq, Repr

/-- Modelled from the spec: `Base64EncodedOutput::writeOutputData`, which appends the raw
bytes of `count` elements to the base64 stream: every complete 3-byte group of carry
and new bytes is written to the sink at once, the rest is carried to the next call. -/
def Base64EncodedOutput.writeOutputData (self : Base64EncodedOutput) (output : Sink)
    (data : List Byte) : Base64EncodedOutput × Sink :=
  ({ carry := residualBytes (self.carry ++ data) },
   output ++ encodeTriplets (self.carry ++ data))

/-- Modelled from the spec: `Base64EncodedOutput::closeOutputData`, which flushes the
residual bytes as one padded group and finalizes the run. -/
def Base64EncodedOutput.closeOutputData (self : Base64EncodedOutput) (output : Sink) :
    Base64EncodedOutput × Sink :=
  ({ carry := [] }, output ++ encodeResidual self.carry)

/-- Modelled from the spec: `encodedNumberOfBytes` (declared outside the given sources),
the number `ceil(n/3)*4` of characters that encoding `n` raw bytes produces. -/
def encodedNumberOfBytes (rawNumberOfBytes : Nat) : Nat :=
  (rawNumberOfBytes + 2) / 3 * 4

/-- The 6-bit value a base64 character stands for, if it is in the alphabet. -/
def base64Index (c : Byte) : Option Nat :=
  if base64Alphabet.indexOf c < 64 then some (base64Alphabet.indexOf c) else none

/-- Standard base64 decoding of one run (RFC 4648 with padding): groups of four
characters, padding allowed in the last group only. This is the reader against which
the written text is checked; the writers never call it. -/
def base64Decode : List Byte → Option (List Byte)
  | [] => some []
  | c0 :: c1 :: c2 :: c3 :: rest =>
    match base64Index c0, base64Index c1 with
    | some s0, some s1 =>
      if c2 = base64Pad ∧ c3 = base64Pad ∧ rest = [] then
        some [Fin.ofNat (s0 * 4 + s1 / 16)]
      else
        match base64Index c2 with
        | some s2 =>
          if c3 = base64Pad ∧ rest = [] then
            some [Fin.ofNat (s0 * 4 + s1 / 16), Fin.ofNat (s1 % 16 * 16 + s2 / 4)]
          else
            match base64Index c3, base64Decode rest with
            | some s3, some tail =>
              some (Fin.ofNat (s0 * 4 + s1 / 16) :: Fin.ofNat (s1 % 16 * 16 + s2 / 4) ::
                Fin.ofNat (s2 % 4 * 64 + s3) :: tail)
            | _, _ => none
        | none => none
    | _, _ => none
  | _ => none

/-! ## Base64-Inline -/

/-- The `struct Base64BinaryWriter` has no data members. -/
structure Base64BinaryWriter where
  deriving DecidableEq, Repr

/-- Method `Base64BinaryWriter::writeData`. -/
def Base64BinaryWriter.writeData (hw : Nat) (self : Base64BinaryWriter) (output : Sink)
    (a : NumArray) : Base64BinaryWriter × Sink :=
  let numberOfBytes := toHeaderType hw (a.n * a.elemSize)
  let base64output : Base64EncodedOutput := {}
  let s1 := base64output.writeOutputData output (memBytes hw numberOfBytes)
  let s2 := s1.1.writeOutputData s1.2 a.bytes
  let s3 := s2.1.closeOutputData s2.2
  (self, s3.2 ++ text "\n")

/-- Method `Base64BinaryWriter::writeAppended`. -/
def Base64BinaryWriter.writeAppended (self : Base64BinaryWriter) (output : Sink) :
    Base64BinaryWriter × Sink :=
  (self, output)

/-- Method `Base64BinaryWriter::addHeaderAttributes`; `dataTypeString` stands for the value of
`dataTypeString<HeaderType>( )`, a lookup declared outside the given sources. -/
def Base64BinaryWriter.addHeaderAttributes (dataTypeString : String)
    (self : Base64BinaryWriter) (attributes : StringStringMap) :
    Base64BinaryWriter × StringStringMap :=
  (self, attributes.assign "header_type" dataTypeString)

/-- Method `Base64BinaryWriter::addDataAttributes`. -/
def Base64BinaryWriter.addDataAttributes (self : Base64BinaryWriter)
    (attributes : StringStringMap) : Base64BinaryWriter × StringStringMap :=
  (self, attributes.assign "format" "binary")

/-- Method `Base64BinaryWriter::appendedAttributes`. -/
def Base64BinaryWriter.appendedAttributes (self : Base64BinaryWriter) :
    Base64BinaryWriter × StringStringMap :=
  (self, [])

/-! ## Base64-Appended -/

/-- The `struct Base64BinaryAppendedWriter`: the running offset and the ledger of
(pointer, byte length) pairs. -/
structure Base64BinaryAppendedWriter where
  offset : Nat := 0
  appendedData : List (List Byte × Nat) := []
  deriving DecidableEq, Repr

/-- Method `Base64BinaryAppendedWriter::writeData`. -/
def Base64BinaryAppendedWriter.writeData (hw : Nat) (self : Base64BinaryAppendedWriter)
    (output : Sink) (a : NumArray) : Base64BinaryAppendedWriter × Sink :=
  let rawBytes := toHeaderType hw (a.n * a.elemSize)
  ({ offset := self.offset + encodedNumberOfBytes (rawBytes + hw),
     appendedData := self.appendedData ++ [(a.bytes, rawBytes)] }, output)

/-- One pass of the loop body of `Base64BinaryAppendedWriter::writeAppended`: a new
encoder, the length, `dataSet.second` bytes from `dataSet.first`, and the close. -/
def Base64BinaryAppendedWriter.writeRecord (hw : Nat) (output : Sink)
    (dataSet : List Byte × Nat) : Sink :=
  let base64output : Base64EncodedOutput := {}
  let s1 := base64output.writeOutputData output (memBytes hw dataSet.2)
  let s2 := s1.1.writeOutputData s1.2 (dataSet.1.take dataSet.2)
  let s3 := s2.1.closeOutputData s2.2
  s3.2

/-- Method `Base64BinaryAppendedWriter::writeAppended`. -/
def Base64BinaryAppendedWriter.writeAppended (hw : Nat) (self : Base64BinaryAppendedWriter)
    (output : Sink) : Base64BinaryAppendedWriter × Sink :=
  (self,
   self.appendedData.foldl (Base64BinaryAppendedWriter.writeRecord hw) output ++ text "\n")

/-- Method `Base64BinaryAppendedWriter::addHeaderAttributes`; `dataTypeString` stands for the
value of `dataTypeString<HeaderType>( )`. -/
def Base64BinaryAppendedWriter.addHeaderAttributes (dataTypeString : String)
    (self : Base64BinaryAppendedWriter) (attributes : StringStringMap) :
    Base64BinaryAppendedWriter × StringStringMap :=
  (self, attributes.assign "header_type" dataTypeString)

/-- Method `Base64BinaryAppendedWriter::addDataAttributes`. -/
def Base64BinaryAppendedWriter.addDataAttributes (self : Base64BinaryAppendedWriter)
    (attributes : StringStringMap) : Base64BinaryAppendedWriter × StringStringMap :=
  (self, (attributes.assign "format" "appended").assign "offset" (to_string self.offset))

/-- Method `Base64BinaryAppendedWriter::appendedAttributes`. -/
def Base64BinaryAppendedWriter.appendedAttributes (self : Base64BinaryAppendedWriter) :
    Base64BinaryAppendedWriter × StringStringMap :=
  (self, [("encoding", "base64")])

/-! ## Raw-Appended -/

/-- The `struct RawBinaryAppendedWriter`: the running offset and the ledger of
(pointer, byte length) pairs. -/
structure RawBinaryAppendedWriter where
  offset : Nat := 0
  appendedData : List (List Byte × Nat) := []
  deriving DecidableEq, Repr

/-- Method `RawBinaryAppendedWriter::writeData`. -/
def RawBinaryAppendedWriter.writeData (hw : Nat) (self : RawBinaryAppendedWriter)
    (output : Sink) (a : NumArray) : RawBinaryAppendedWriter × Sink :=
  let rawBytes := toHeaderType hw (a.n * a.elemSize)
  ({ offset := self.offset + (hw + rawBytes),
     appendedData := self.appendedData ++ [(a.bytes, rawBytes)] }, output)

/-- One pass of the loop body of `RawBinaryAppendedWriter::writeAppended`: the `hw`
bytes of the length, then `dataSet.second` bytes from `dataSet.first`. -/
def RawBinaryAppendedWriter.writeRecord (hw : Nat) (output : Sink)
    (dataSet : List Byte × Nat) : Sink :=
  output ++ memBytes hw dataSet.2 ++ dataSet.1.take dataSet.2

/-- Method `RawBinaryAppendedWriter::writeAppended`. -/
def RawBinaryAppendedWriter.writeAppended (hw : Nat) (self : RawBinaryAppendedWriter)
    (output : Sink) : RawBinaryAppendedWriter × Sink :=
  (self, self.appendedData.foldl (RawBinaryAppendedWriter.writeRecord hw) output ++ text "\n")

/-- Method `RawBinaryAppendedWriter::addHeaderAttributes`; `dataTypeString` stands for the value
of `dataTypeString<HeaderType>( )`. -/
def RawBinaryAppendedWriter.addHeaderAttributes (dataTypeString : String)
    (self : RawBinaryAppendedWriter) (attributes : StringStringMap) :
    RawBinaryAppendedWriter × StringStringMap :=
  (self, attributes.assign "header_type" dataTypeString)

/-- Method `RawBinaryAppendedWriter::addDataAttributes`. -/
def RawBinaryAppendedWriter.addDataAttributes (self : RawBinaryAppendedWriter)
    (attributes : StringStringMap) : RawBinaryAppendedWriter × StringStringMap :=
  (self, (attributes.assign "format" "appended").assign "offset" (to_string self.offset))

/-- Method `RawBinaryAppendedWriter::appendedAttributes`. -/
def RawBinaryAppendedWriter.appendedAttributes (self : RawBinaryAppendedWriter) :
    RawBinaryAppendedWriter × StringStringMap :=
  (self, [("encoding", "raw")])


/-! ## Ascii -/

/-- The value of an integer converted to the signed integer type of `bits` bits. -/
def toSigned (bits : Nat) (v : Int) : Int :=
  (v + 2 ^ (bits - 1)) % 2 ^ bits - 2 ^ (bits - 1)

/-- The value of an integer converted to the unsigned integer type of `bits` bits. -/
def toUnsigned (bits : Nat) (v : Int) : Int :=
  v % 2 ^ bits

/-- Whether `T` is a signed integer type (plain `char` is signed on the targets
modelled). -/
def CType.isSigned : CType → Bool
  | .longLong | .long | .int | .short | .char | .sChar => true
  | _ => false

/-- The value `*begin` of a scalar of type `T` whose stored residue is `v`: the signed or
unsigned reading of its bits (for a floating point type, its bit pattern). -/
def CType.load (T : CType) (v : Int) : Int :=
  if T.isSigned then toSigned (8 * T.sizeof) v else toUnsigned (8 * T.sizeof) v

/-- The C string `std::snprintf( buffer, size, format, value )` leaves in `buffer`, for
the integer conversions the specialisations use: the argument is read as the type the
conversion names and printed in decimal, cut to `size - 1` characters. -/
def snprintf (size : Nat) (format : String) (value : Int) : String :=
  let full :=
    if format = "%lld" ∨ format = "%ld" then Int.repr (toSigned 64 value)
    else if format = "%d" then Int.repr (toSigned 32 value)
    else if format = "%hd" then Int.repr (toSigned 16 value)
    else if format = "%hhd" then Int.repr (toSigned 8 value)
    else if format = "%llu" then Int.repr (toUnsigned 64 value)
    else ""
  String.mk (full.toList.take (size - 1))

/-- Function `detail::writeNumber`: the generic template throws, each specialisation formats with
its conversion into the 64-byte buffer. `VTU11_ASCII_FLOATING_POINT_FORMAT` is defined
outside the given sources: `floatText` is the text that format gives for the `double`
with a given bit pattern. The result is the buffer, or the message thrown. -/
def detail.writeNumber (floatText : Int → String) : CType → Int → Except String String
  | .double, value => .ok (floatText value)
  | .longLong, value => .ok (snprintf 64 "%lld" value)
  | .long, value => .ok (snprintf 64 "%ld" value)
  | .int, value => .ok (snprintf 64 "%d" value)
  | .short, value => .ok (snprintf 64 "%hd" value)
  | .char, value => .ok (snprintf 64 "%hhd" value)
  | .uLongLong, value => .ok (snprintf 64 "%llu" value)
  | .uLong, value => .ok (snprintf 64 "%ld" value)
  | .uInt, value => .ok (snprintf 64 "%d" value)
  | .uShort, value => .ok (snprintf 64 "%hd" value)
  | .uChar, value => .ok (snprintf 64 "%hhd" value)
  | _, _ => .error "Invalid data type."

/-- The `struct AsciiWriter` has no data members. -/
structure AsciiWriter where
  deriving DecidableEq, Repr

/-- The `for` loop of `AsciiWriter::writeData` over the scalars still to be written. -/
def AsciiWriter.writeScalars (floatText : Int → String) (T : IteratorType) :
    Sink → List Int → Except String Sink
  | output, [] => .ok output
  | output, v :: rest =>
    if T = ⟨.sChar, true⟩ then
      AsciiWriter.writeScalars floatText T
        (output ++ text (Int.repr (toSigned 32 (T.pointee.load v))) ++ text " ") rest
    else
      match detail.writeNumber floatText T.pointee (T.pointee.load v) with
      | .ok buffer =>
        AsciiWriter.writeScalars floatText T (output ++ text buffer ++ text " ") rest
      | .error e => .error e

/-- Method `AsciiWriter::writeData`: the stream after the call, or the message thrown. -/
def AsciiWriter.writeData (floatText : Int → String) (self : AsciiWriter) (output : Sink)
    (a : NumArray) : Except String (AsciiWriter × Sink) :=
  match AsciiWriter.writeScalars floatText a.TIteratorType output a.elems with
  | .ok out => .ok (self, out ++ text "\n")
  | .error e => .error e

/-- Method `AsciiWriter::writeAppended`. -/
def AsciiWriter.writeAppended (self : AsciiWriter) (output : Sink) : AsciiWriter × Sink :=
  (self, output)

/-- Method `AsciiWriter::addHeaderAttributes`. -/
def AsciiWriter.addHeaderAttributes (self : AsciiWriter) (attributes : StringStringMap) :
    AsciiWriter × StringStringMap :=
  (self, attributes)

/-- Method `AsciiWriter::addDataAttributes`. -/
def AsciiWriter.addDataAttributes (self : AsciiWriter) (attributes : StringStringMap) :
    AsciiWriter × StringStringMap :=
  (self, attributes.assign "format" "ascii")

/-- Method `AsciiWriter::appendedAttributes`. -/
def AsciiWriter.appendedAttributes (self : AsciiWriter) : AsciiWriter × StringStringMap :=
  (self, [])

/-! ## Call sequences and derived notions used in the statements -/

/-- The declaration phase on a Raw-Appended writer: `writeData` once per array, in the
order given, always on the same stream. -/
def RawBinaryAppendedWriter.writeDataAll (hw : Nat) :
    RawBinaryAppendedWriter → Sink → List NumArray → RawBinaryAppendedWriter × Sink
  | self, output, [] => (self, output)
  | self, output, a :: rest =>
    RawBinaryAppendedWriter.writeDataAll hw (self.writeData hw output a).1
      (self.writeData hw output a).2 rest

/-- The declaration phase on a Base64-Appended writer: `writeData` once per array, in the
order given, always on the same stream. -/
def Base64BinaryAppendedWriter.writeDataAll (hw : Nat) :
    Base64BinaryAppendedWriter → Sink → List NumArray → Base64BinaryAppendedWriter × Sink
  | self, output, [] => (self, output)
  | self, output, a :: rest =>
    Base64BinaryAppendedWriter.writeDataAll hw (self.writeData hw output a).1
      (self.writeData hw output a).2 rest

/-- The text of one base64 run over `bytes`: its complete groups, then the padded group
of its residual bytes. -/
def base64Run (bytes : List Byte) : List Byte :=
  encodeTriplets bytes ++ encodeResidual (residualBytes bytes)

/-- The encoded record of an array on Base64-Appended: the length prefix holding its
byte size followed by its payload, as one base64 run. -/
def Base64BinaryAppendedWriter.encodedRecord (hw : Nat) (a : NumArray) : List Byte :=
  base64Run (memBytes hw (a.n * a.elemSize) ++ a.bytes)

/-- The encoded record of an array on Raw-Appended: the length prefix holding its byte
size followed by its payload, both raw. -/
def RawBinaryAppendedWriter.encodedRecord (hw : Nat) (a : NumArray) : List Byte :=
  memBytes hw (a.n * a.elemSize) ++ a.bytes

/-- The unsigned value whose in-memory representation, least significant byte first, is
`bytes`. -/
def memValue : List Byte → Nat
  | [] => 0
  | b :: rest => b.val + 256 * memValue rest

/-- Whether `detail::writeNumber` has a specialisation for `T`, as listed by the uses of
`VTU11_WRITE_NUMBER_SPECIALIZATION`. -/
def CType.hasWriteNumber : CType → Bool
  | .double | .longLong | .long | .int | .short | .char => true
  | .uLongLong | .uLong | .uInt | .uShort | .uChar => true
  | .sChar | .float => false

/-- Reading of a string of decimal digits, most significant first, onto the value `acc`
of the digits before it; no result when a character is not a decimal digit. -/
def parseDigitsFrom (acc : Nat) : List Char → Option Nat
  | [] => some acc
  | c :: cs => if c.isDigit then parseDigitsFrom (acc * 10 + (c.toNat - 48)) cs else none

/-- The value of a decimal numeral: an optional minus sign and at least one decimal
digit. -/
def parseNumeral : List Char → Option Int
  | [] => none
  | c :: cs =>
    if c = '-' then
      if cs = [] then none else (parseDigitsFrom 0 cs).map (fun n => -(n : Int))
    else (parseDigitsFrom 0 (c :: cs)).map (fun n => (n : Int))

/-- The reader against which the text of `writeNumber` is checked: `buffer` parsed as a
decimal integer of kind `T`, that is a decimal numeral whose value is a value of `T`.
The writers never call it. -/
def parseDecimal (T : CType) (buffer : String) : Option Int :=
  (parseNumeral buffer.toList).bind (fun v => if T.load v = v then some v else none)

/-- Formatting then parsing round-trips for the kind `T`: for every value of `T`,
`writeNumber` leaves a text in the buffer, and that text parsed as a decimal integer of
kind `T` is the value. -/
def RoundTrips (floatText : Int → String) (T : CType) : Prop :=
  ∀ v : Int, ∃ buffer, detail.writeNumber floatText T (T.load v) = .ok buffer
    ∧ parseDecimal T buffer = some (T.load v)

/-- The array `[1, 2]` of `int`: 8 bytes of storage. -/
def int32_1_2 : NumArray :=
  ⟨⟨.int, true⟩, [1, 2]⟩

/-- An array of four `int`: 16 bytes of storage. -/
def int32_four : NumArray :=
  ⟨⟨.int, true⟩, [3, 4, 5, 6]⟩

/-- An array of three `char`: 3 bytes of storage. -/
def char_three : NumArray :=
  ⟨⟨.char, true⟩, [7, 8, 9]⟩

/-- An array of `2 ^ 32` scalars of type `char`, all zero: 4 GiB of storage. -/
def fourGiBArray : NumArray :=
  ⟨⟨.char, true⟩, List.replicate (2 ^ 32) 0⟩

/-! ## Lemmas: attribute maps, storage -/

theorem find_assign_self (m : StringStringMap) (key value : String) :
    StringStringMap.find (StringStringMap.assign m key value) key = some value := by
  induction m with
  | nil => simp [StringStringMap.assign, StringStringMap.find]
  | cons kv rest ih =>
    obtain ⟨k, v⟩ := kv
    unfold StringStringMap.assign
    split_ifs with h1 h2
    · simp [StringStringMap.find]
    · simp [StringStringMap.find]
    · simp [StringStringMap.find, h1, ih]

theorem length_memBytes (w v : Nat) : (memBytes w v).length = w := by
  simp [memBytes]

theorem length_scalarBytes (T : CType) (v : Int) : (scalarBytes T v).length = T.sizeof := by
  simp [scalarBytes, length_memBytes]

theorem length_bytes (a : NumArray) : a.bytes.length = a.n * a.elemSize := by
  obtain ⟨T, elems⟩ := a
  simp only [NumArray.bytes, NumArray.n, NumArray.elemSize]
  induction elems with
  | nil => simp
  | cons v rest ih =>
    simp only [List.flatMap_cons, List.length_append, List.length_cons, ih,
      length_scalarBytes]
    ring

theorem toHeaderType_le (hw x : Nat) : toHeaderType hw x ≤ x :=
  Nat.mod_le _ _

theorem toHeaderType_of_fits (hw : Nat) (a : NumArray) (h : a.fitsHeaderType hw) :
    toHeaderType hw (a.n * a.elemSize) = a.n * a.elemSize :=
  Nat.mod_eq_of_lt h

theorem take_bytes (hw : Nat) (a : NumArray) (h : a.fitsHeaderType hw) :
    a.bytes.take (toHeaderType hw (a.n * a.elemSize)) = a.bytes := by
  rw [toHeaderType_of_fits hw a h, ← length_bytes a, List.take_length]

theorem memValue_memBytes (w v : Nat) : memValue (memBytes w v) = v % 2 ^ (8 * w) := by
  induction w generalizing v with
  | zero => simp [memBytes, memValue, Nat.mod_one]
  | succ w ih =>
    have hstep : memBytes (w + 1) v = Fin.ofNat v :: memBytes w (v / 256) := by
      simp only [memBytes, List.range_succ_eq_map, List.map_cons, List.map_map, pow_zero,
        Nat.div_one, List.cons.injEq, true_and]
      apply List.map_congr_left
      intro i _
      simp [Function.comp, pow_succ, Nat.div_div_eq_div_mul, Nat.mul_comm]
    rw [hstep, memValue, ih]
    have h256 : (2 : Nat) ^ (8 * (w + 1)) = 256 * 2 ^ (8 * w) := by
      rw [show 8 * (w + 1) = 8 + 8 * w by ring, pow_add]; norm_num
    rw [h256, Nat.mod_mul]
    simp [Fin.ofNat]

/-! ## Lemmas: the declaration phase and the flush loop -/

theorem raw_writeDataAll_snd (hw : Nat) (self : RawBinaryAppendedWriter)
    (output : Sink) (arrays : List NumArray) :
    (RawBinaryAppendedWriter.writeDataAll hw self output arrays).2 = output := by
  induction arrays generalizing self with
  | nil => rfl
  | cons a rest ih => simp [RawBinaryAppendedWriter.writeDataAll, ih,
      RawBinaryAppendedWriter.writeData]

theorem raw_writeDataAll_offset (hw : Nat)
    (self : RawBinaryAppendedWriter) (output : Sink) (arrays : List NumArray) :
    (RawBinaryAppendedWriter.writeDataAll hw self output arrays).1.offset
      = self.offset
        + (arrays.map (fun a => hw + toHeaderType hw (a.n * a.elemSize))).sum := by
  induction arrays generalizing self with
  | nil => simp [RawBinaryAppendedWriter.writeDataAll]
  | cons a rest ih =>
    simp only [RawBinaryAppendedWriter.writeDataAll, ih, RawBinaryAppendedWriter.writeData,
      List.map_cons, List.sum_cons]
    omega

theorem raw_writeDataAll_appendedData (hw : Nat)
    (self : RawBinaryAppendedWriter) (output : Sink) (arrays : List NumArray) :
    (RawBinaryAppendedWriter.writeDataAll hw self output arrays).1.appendedData
      = self.appendedData
        ++ arrays.map (fun a => (a.bytes, toHeaderType hw (a.n * a.elemSize))) := by
  induction arrays generalizing self with
  | nil => simp [RawBinaryAppendedWriter.writeDataAll]
  | cons a rest ih =>
    simp [RawBinaryAppendedWriter.writeDataAll, ih, RawBinaryAppendedWriter.writeData]

theorem raw_foldl_writeRecord (hw : Nat)
    (records : List (List Byte × Nat)) (output : Sink) :
    records.foldl (RawBinaryAppendedWriter.writeRecord hw) output
      = output ++ (records.map (fun r => memBytes hw r.2 ++ r.1.take r.2)).flatten := by
  induction records generalizing output with
  | nil => simp
  | cons r rest ih =>
    simp [List.foldl_cons, ih, RawBinaryAppendedWriter.writeRecord, List.append_assoc]

theorem base64_writeDataAll_snd (hw : Nat)
    (self : Base64BinaryAppendedWriter) (output : Sink) (arrays : List NumArray) :
    (Base64BinaryAppendedWriter.writeDataAll hw self output arrays).2 = output := by
  induction arrays generalizing self with
  | nil => rfl
  | cons a rest ih => simp [Base64BinaryAppendedWriter.writeDataAll, ih,
      Base64BinaryAppendedWriter.writeData]

theorem base64_writeDataAll_offset (hw : Nat)
    (self : Base64BinaryAppendedWriter) (output : Sink) (arrays : List NumArray) :
    (Base64BinaryAppendedWriter.writeDataAll hw self output arrays).1.offset
      = self.offset
        + (arrays.map (fun a =>
            encodedNumberOfBytes (toHeaderType hw (a.n * a.elemSize) + hw))).sum := by
  induction arrays generalizing self with
  | nil => simp [Base64BinaryAppendedWriter.writeDataAll]
  | cons a rest ih =>
    simp only [Base64BinaryAppendedWriter.writeDataAll, ih,
      Base64BinaryAppendedWriter.writeData, List.map_cons, List.sum_cons]
    omega

theorem base64_writeDataAll_appendedData (hw : Nat)
    (self : Base64BinaryAppendedWriter) (output : Sink) (arrays : List NumArray) :
    (Base64BinaryAppendedWriter.writeDataAll hw self output arrays).1.appendedData
      = self.appendedData
        ++ arrays.map (fun a => (a.bytes, toHeaderType hw (a.n * a.elemSize))) := by
  induction arrays generalizing self with
  | nil => simp [Base64BinaryAppendedWriter.writeDataAll]
  | cons a rest ih =>
    simp [Base64BinaryAppendedWriter.writeDataAll, ih, Base64BinaryAppendedWriter.writeData]

theorem map_toHeaderType_of_fits {β : Type} (hw : Nat) (F : NumArray → Nat → β)
    (arrays : List NumArray) (hfit : ∀ a ∈ arrays, a.fitsHeaderType hw) :
    arrays.map (fun a => F a (toHeaderType hw (a.n * a.elemSize)))
      = arrays.map (fun a => F a (a.n * a.elemSize)) :=
  List.map_congr_left (fun a ha => by rw [toHeaderType_of_fits hw a (hfit a ha)])

/-! ## Lemmas: the base64 transcoder -/

theorem three_step_induction {α : Type} {P : List α → Prop} (h0 : P [])
    (h1 : ∀ a, P [a]) (h2 : ∀ a b, P [a, b])
    (h3 : ∀ a b c rest, P rest → P (a :: b :: c :: rest)) : ∀ l, P l
  | [] => h0
  | [a] => h1 a
  | [a, b] => h2 a b
  | a :: b :: c :: rest => h3 a b c rest (three_step_induction h0 h1 h2 h3 rest)

theorem encodeTriplets_append (xs ys : List Byte) :
    encodeTriplets (xs ++ ys) = encodeTriplets xs ++ encodeTriplets (residualBytes xs ++ ys) := by
  induction xs using three_step_induction with
  | h0 => simp [encodeTriplets, residualBytes]
  | h1 a => simp [encodeTriplets, residualBytes]
  | h2 a b => simp [encodeTriplets, residualBytes]
  | h3 a b c rest ih => simp [encodeTriplets, residualBytes, ih]

theorem residualBytes_append (xs ys : List Byte) :
    residualBytes (xs ++ ys) = residualBytes (residualBytes xs ++ ys) := by
  induction xs using three_step_induction with
  | h0 => simp [residualBytes]
  | h1 a => simp [residualBytes]
  | h2 a b => simp [residualBytes]
  | h3 a b c rest ih => simp [residualBytes, ih]

theorem length_base64Run (bytes : List Byte) :
    (base64Run bytes).length = encodedNumberOfBytes bytes.length := by
  induction bytes using three_step_induction with
  | h0 => simp [base64Run, encodeTriplets, residualBytes, encodeResidual, encodedNumberOfBytes]
  | h1 a => simp [base64Run, encodeTriplets, residualBytes, encodeResidual, encodedNumberOfBytes]
  | h2 a b =>
    simp [base64Run, encodeTriplets, residualBytes, encodeResidual, encodedNumberOfBytes]
  | h3 a b c rest ih =>
    simp only [base64Run, encodeTriplets, residualBytes, encodeTriplet, List.length_append,
      List.length_cons, List.length_nil, encodedNumberOfBytes] at ih ⊢
    omega

/-- One run through the encoder (length, then payload, then close) writes the base64
run of length and payload taken together. -/
theorem transcode_two_parts (output first second : List Byte) :
    let base64output : Base64EncodedOutput := {}
    let s1 := base64output.writeOutputData output first
    let s2 := s1.1.writeOutputData s1.2 second
    (s2.1.closeOutputData s2.2).2 = output ++ base64Run (first ++ second) := by
  simp only [Base64EncodedOutput.writeOutputData, Base64EncodedOutput.closeOutputData,
    List.nil_append, base64Run, encodeTriplets_append first second,
    residualBytes_append first second, List.append_assoc]

theorem base64Index_base64Char (i : Nat) (h : i < 64) :
    base64Index (base64Char i) = some i := by
  have key : ∀ j : Fin 64, base64Index (base64Char j.val) = some j.val := by decide
  exact key ⟨i, h⟩

theorem base64Char_ne_pad (i : Nat) (h : i < 64) : base64Char i ≠ base64Pad := by
  have key : ∀ j : Fin 64, base64Char j.val ≠ base64Pad := by decide
  exact key ⟨i, h⟩

theorem base64Decode_base64Run (bytes : List Byte) :
    base64Decode (base64Run bytes) = some bytes := by
  induction bytes using three_step_induction with
  | h0 => simp [base64Run, encodeTriplets, residualBytes, encodeResidual, base64Decode]
  | h1 a =>
    have ha := a.isLt
    simp only [base64Run, encodeTriplets, residualBytes, encodeResidual, List.nil_append,
      base64Decode]
    rw [base64Index_base64Char _ (by omega), base64Index_base64Char _ (by omega)]
    simp only [and_self, if_true, Option.some.injEq, List.cons.injEq, and_true]
    apply Fin.ext
    simp only [Fin.ofNat, Fin.val_mk]
    omega
  | h2 a b =>
    have ha := a.isLt
    have hb := b.isLt
    simp only [base64Run, encodeTriplets, residualBytes, encodeResidual, List.nil_append,
      base64Decode]
    rw [base64Index_base64Char _ (by omega), base64Index_base64Char _ (by omega),
      base64Index_base64Char _ (by omega)]
    simp only [base64Char_ne_pad _ (show b.val % 16 * 4 < 64 by omega), false_and, if_false,
      and_self, if_true, Option.some.injEq, List.cons.injEq, and_true]
    constructor <;> apply Fin.ext <;> simp only [Fin.ofNat, Fin.val_mk] <;> omega
  | h3 a b c rest ih =>
    have ha := a.isLt
    have hb := b.isLt
    have hc := c.isLt
    have hrun : base64Run (a :: b :: c :: rest) = encodeTriplet a b c ++ base64Run rest := by
      simp [base64Run, encodeTriplets, residualBytes]
    rw [hrun]
    simp only [encodeTriplet, List.cons_append, List.nil_append, base64Decode]
    rw [base64Index_base64Char _ (by omega), base64Index_base64Char _ (by omega),
      base64Index_base64Char _ (by omega), base64Index_base64Char _ (by omega)]
    simp only [List.append_eq, List.nil_append, ih,
      base64Char_ne_pad _ (show b.val % 16 * 4 + c.val / 64 < 64 by omega),
      base64Char_ne_pad _ (show c.val % 64 < 64 by omega), false_and, if_false,
      Option.some.injEq, List.cons.injEq, and_true]
    refine ⟨?_, ?_, ?_⟩ <;> apply Fin.ext <;> simp only [Fin.ofNat, Fin.val_mk] <;> omega

theorem ceil_third (n : Nat) : ⌈((n : ℕ) : ℚ) / 3⌉₊ = (n + 2) / 3 := by
  have hn : n = 3 * (n / 3) + n % 3 := (Nat.div_add_mod n 3).symm
  have hr : n % 3 < 3 := Nat.mod_lt _ (by norm_num)
  generalize n / 3 = q at hn
  generalize n % 3 = r at hn hr
  subst hn
  interval_cases r
  · rw [show (3 * q + 0 + 2) / 3 = q by omega]
    rw [show (((3 * q + 0 : ℕ) : ℚ) / 3) = (q : ℚ) by push_cast; ring]
    exact Nat.ceil_natCast q
  · rw [show (3 * q + 1 + 2) / 3 = q + 1 by omega]
    rw [Nat.ceil_eq_iff (by omega)]
    constructor
    · push_cast
      linarith
    · push_cast
      linarith
  · rw [show (3 * q + 2 + 2) / 3 = q + 1 by omega]
    rw [Nat.ceil_eq_iff (by omega)]
    constructor
    · push_cast
      linarith
    · push_cast
      linarith

theorem encodedNumberOfBytes_eq_ceil (n : Nat) :
    encodedNumberOfBytes n = 4 * ⌈((n : ℕ) : ℚ) / 3⌉₊ := by
  rw [ceil_third, encodedNumberOfBytes, Nat.mul_comm]

theorem base64_writeRecord_eq (hw : Nat) (output : Sink)
    (dataSet : List Byte × Nat) :
    Base64BinaryAppendedWriter.writeRecord hw output dataSet
      = output ++ base64Run (memBytes hw dataSet.2 ++ dataSet.1.take dataSet.2) :=
  transcode_two_parts output (memBytes hw dataSet.2) (dataSet.1.take dataSet.2)

theorem base64_foldl_writeRecord (hw : Nat)
    (records : List (List Byte × Nat)) (output : Sink) :
    records.foldl (Base64BinaryAppendedWriter.writeRecord hw) output
      = output
        ++ (records.map (fun r => base64Run (memBytes hw r.2 ++ r.1.take r.2))).flatten := by
  induction records generalizing output with
  | nil => simp
  | cons r rest ih =>
    simp [List.foldl_cons, ih, base64_writeRecord_eq, List.append_assoc]

theorem length_take_bytes (hw : Nat) (a : NumArray) :
    (a.bytes.take (toHeaderType hw (a.n * a.elemSize))).length
      = toHeaderType hw (a.n * a.elemSize) := by
  rw [List.length_take, length_bytes a]
  exact Nat.min_eq_left (toHeaderType_le hw _)

/-- What the flush of a Base64-Appended writer adds to the stream, in terms of the arrays
declared on a fresh writer. -/
theorem base64_flush_declared (hw : Nat) (arrays : List NumArray)
    (output sink : Sink) :
    (Base64BinaryAppendedWriter.writeAppended hw
        (Base64BinaryAppendedWriter.writeDataAll hw {} output arrays).1 sink).2
      = sink
        ++ (arrays.map (fun a =>
              base64Run (memBytes hw (toHeaderType hw (a.n * a.elemSize))
                ++ a.bytes.take (toHeaderType hw (a.n * a.elemSize))))).flatten
        ++ text "\n" := by
  simp [Base64BinaryAppendedWriter.writeAppended,
    base64_writeDataAll_appendedData,
    base64_foldl_writeRecord, List.map_map, Function.comp_def]

/-- What the flush of a Raw-Appended writer adds to the stream, in terms of the arrays
declared on a fresh writer. -/
theorem raw_flush_declared (hw : Nat) (arrays : List NumArray)
    (output sink : Sink) :
    (RawBinaryAppendedWriter.writeAppended hw
        (RawBinaryAppendedWriter.writeDataAll hw {} output arrays).1 sink).2
      = sink
        ++ (arrays.map (fun a =>
              memBytes hw (toHeaderType hw (a.n * a.elemSize))
                ++ a.bytes.take (toHeaderType hw (a.n * a.elemSize)))).flatten
        ++ text "\n" := by
  simp [RawBinaryAppendedWriter.writeAppended,
    raw_writeDataAll_appendedData,
    raw_foldl_writeRecord, List.map_map, Function.comp_def]

theorem length_flatten_map {α : Type} (f : α → List Byte) (g : α → Nat) (xs : List α)
    (h : ∀ x ∈ xs, (f x).length = g x) :
    (xs.map f).flatten.length = (xs.map g).sum := by
  induction xs with
  | nil => rfl
  | cons x rest ih =>
    simp only [List.map_cons, List.flatten_cons, List.length_append, List.sum_cons]
    rw [ih (fun y hy => h y (List.mem_cons_of_mem _ hy)), h x (List.mem_cons_self _ _)]

theorem segment_of_append {α : Type} (whole front before rec after : List α) (k : Nat)
    (hw : whole = front ++ before ++ rec ++ after)
    (hk : k = front.length + before.length) :
    (whole.drop k).take rec.length = rec := by
  subst hk hw
  have h : front ++ before ++ rec ++ after = (front ++ before) ++ (rec ++ after) := by
    simp [List.append_assoc]
  rw [h, show front.length + before.length = (front ++ before).length by simp,
    List.drop_left, List.take_left]

theorem base64_flush_of_fits (hw : Nat) (arrays : List NumArray)
    (output sink : Sink) (hfit : ∀ a ∈ arrays, a.fitsHeaderType hw) :
    (Base64BinaryAppendedWriter.writeAppended hw
        (Base64BinaryAppendedWriter.writeDataAll hw {} output arrays).1 sink).2
      = sink ++ (arrays.map (Base64BinaryAppendedWriter.encodedRecord hw)).flatten
        ++ text "\n" := by
  rw [base64_flush_declared]
  congr 3
  apply List.map_congr_left
  intro a ha
  rw [take_bytes hw a (hfit a ha), toHeaderType_of_fits hw a (hfit a ha)]
  rfl

theorem raw_flush_of_fits (hw : Nat) (arrays : List NumArray)
    (output sink : Sink) (hfit : ∀ a ∈ arrays, a.fitsHeaderType hw) :
    (RawBinaryAppendedWriter.writeAppended hw
        (RawBinaryAppendedWriter.writeDataAll hw {} output arrays).1 sink).2
      = sink ++ (arrays.map (RawBinaryAppendedWriter.encodedRecord hw)).flatten
        ++ text "\n" := by
  rw [raw_flush_declared]
  congr 3
  apply List.map_congr_left
  intro a ha
  rw [take_bytes hw a (hfit a ha), toHeaderType_of_fits hw a (hfit a ha)]
  rfl

theorem base64_length_encodedRecord (hw : Nat) (a : NumArray) :
    (Base64BinaryAppendedWriter.encodedRecord hw a).length
      = encodedNumberOfBytes (a.n * a.elemSize + hw) := by
  rw [Base64BinaryAppendedWriter.encodedRecord, length_base64Run, List.length_append,
    length_memBytes, length_bytes a, Nat.add_comm]

theorem raw_length_encodedRecord (hw : Nat) (a : NumArray) :
    (RawBinaryAppendedWriter.encodedRecord hw a).length = hw + a.n * a.elemSize := by
  rw [RawBinaryAppendedWriter.encodedRecord, List.length_append, length_memBytes,
    length_bytes a]

/-- The running offset of a Base64-Appended writer counts the bytes its flush writes for
the records. -/
theorem base64_offset_eq_length (hw : Nat) (arrays : List NumArray)
    (output : Sink) :
    (Base64BinaryAppendedWriter.writeDataAll hw {} output arrays).1.offset
      = (arrays.map (fun a =>
          base64Run (memBytes hw (toHeaderType hw (a.n * a.elemSize))
            ++ a.bytes.take (toHeaderType hw (a.n * a.elemSize))))).flatten.length := by
  rw [base64_writeDataAll_offset,
    length_flatten_map _
      (fun a => encodedNumberOfBytes (toHeaderType hw (a.n * a.elemSize) + hw))]
  · simp
  · intro a _
    rw [length_base64Run, List.length_append, length_memBytes, length_take_bytes hw a,
      Nat.add_comm]

/-- The running offset of a Raw-Appended writer counts the bytes its flush writes for
the records. -/
theorem raw_offset_eq_length (hw : Nat) (arrays : List NumArray)
    (output : Sink) :
    (RawBinaryAppendedWriter.writeDataAll hw {} output arrays).1.offset
      = (arrays.map (fun a =>
          memBytes hw (toHeaderType hw (a.n * a.elemSize))
            ++ a.bytes.take (toHeaderType hw (a.n * a.elemSize)))).flatten.length := by
  rw [raw_writeDataAll_offset,
    length_flatten_map _ (fun a => hw + toHeaderType hw (a.n * a.elemSize))]
  · simp
  · intro a _
    rw [List.length_append, length_memBytes, length_take_bytes hw a]

theorem fourGiBArray_n : fourGiBArray.n = 2 ^ 32 := by
  rw [NumArray.n, fourGiBArray, List.length_replicate]

theorem toHeaderType_of_wrap (a : NumArray) (hn : a.n = 2 ^ 32) (hs : a.elemSize = 1) :
    toHeaderType 4 (a.n * a.elemSize) = 0 := by
  rw [hn, hs, toHeaderType]
  norm_num

theorem base64_offset_of_wrap (a b : NumArray) (hn : a.n = 2 ^ 32) (hs : a.elemSize = 1) :
    (Base64BinaryAppendedWriter.writeDataAll 4 {} [] ([a, b].take 1)).1.offset = 8 := by
  rw [base64_writeDataAll_offset]
  simp only [List.take_succ_cons, List.take_zero, List.map_cons, List.map_nil,
    List.sum_cons, List.sum_nil, toHeaderType_of_wrap a hn hs]
  decide

theorem claimed_offset_of_wrap (a b : NumArray) (hn : a.n = 2 ^ 32) (hs : a.elemSize = 1) :
    8 < (([a, b].take 1).map
        (fun a => 4 * ⌈((4 + a.n * a.elemSize : ℕ) : ℚ) / 3⌉₊)).sum := by
  simp only [List.take_succ_cons, List.take_zero, List.map_cons, List.map_nil,
    List.sum_cons, List.sum_nil, ceil_third, hn, hs]
  norm_num

theorem base64_flush_of_wrap (a : NumArray) (hn : a.n = 2 ^ 32) (hs : a.elemSize = 1) :
    (Base64BinaryAppendedWriter.writeAppended 4
        (Base64BinaryAppendedWriter.writeDataAll 4 {} [] [a]).1
        (Base64BinaryAppendedWriter.writeDataAll 4 {} [] [a]).2).2
      = text "AAAAAA==\n" := by
  rw [base64_writeDataAll_snd,
    base64_flush_declared]
  simp only [List.map_cons, List.map_nil, toHeaderType_of_wrap a hn hs, List.take_zero,
    List.append_nil, List.flatten_cons, List.flatten_nil, List.nil_append]
  decide

theorem record_length_of_wrap (a : NumArray) (hn : a.n = 2 ^ 32) (hs : a.elemSize = 1) :
    (memBytes 4 (a.n * a.elemSize) ++ a.bytes).length = 4 + 2 ^ 32 := by
  rw [List.length_append, length_memBytes, length_bytes, hn, hs, Nat.mul_one]

theorem decoded_ne_of_wrap (a : NumArray) (hn : a.n = 2 ^ 32) (hs : a.elemSize = 1) :
    base64Decode (text "AAAAAA==") ≠ some (memBytes 4 (a.n * a.elemSize) ++ a.bytes) := by
  have hdec : base64Decode (text "AAAAAA==") = some [0, 0, 0, 0] := by decide
  intro h
  rw [hdec] at h
  have h2 := congrArg List.length (Option.some.inj h)
  rw [record_length_of_wrap a hn hs] at h2
  simp at h2

/-! ## C1: the `offset` attribute -/

/-- C1, counterexample: with `addDataAttributes` called immediately after the array's
`writeData`, the first array does not get offset `0`. On Base64-Appended with a 4-byte
header the array `[1, 2]` of `int` is reported at `16`; on Raw-Appended arrays of 8 and
16 bytes are reported at `12` and `32`, not at `0` and `12`. -/
theorem offset_attribute_after_writeData_counterexample :
    (((({} : Base64BinaryAppendedWriter).writeData 4 [] int32_1_2).1.addDataAttributes
        []).2.find "offset" = some "16")
    ∧ (((({} : Base64BinaryAppendedWriter).writeData 4 [] int32_1_2).1.addDataAttributes
        []).2.find "offset" ≠ some (to_string 0))
    ∧ (((({} : RawBinaryAppendedWriter).writeData 4 [] int32_1_2).1.addDataAttributes
        []).2.find "offset" = some "12")
    ∧ ((((({} : RawBinaryAppendedWriter).writeData 4 [] int32_1_2).1.writeData 4 []
        int32_four).1.addDataAttributes []).2.find "offset" = some "32") := by
  decide

/-- C1, amended: on both appended writers `addDataAttributes` sets `offset` to the
decimal text of the running offset at the moment of the call. Called immediately before
an array's `writeData`, after the arrays `declared` were declared on a fresh writer, it
reports the running offset as it is before that array's payload is added, which is the
start offset of the payload, and `0` on a fresh writer; called immediately after the
array's `writeData` it reports the offset already advanced by that array. -/
theorem offset_attribute_is_running_offset_at_call (hw : Nat) (declared : List NumArray)
    (a : NumArray) (output : Sink) (attributes : StringStringMap) :
    (((Base64BinaryAppendedWriter.writeDataAll hw {} output declared).1.addDataAttributes
        attributes).2.find "offset"
      = some (to_string (Base64BinaryAppendedWriter.writeDataAll hw {} output declared).1.offset))
    ∧ (((({} : Base64BinaryAppendedWriter).addDataAttributes attributes).2.find "offset"
      = some "0"))
    ∧ ((((Base64BinaryAppendedWriter.writeDataAll hw {} output declared).1.writeData hw
        output a).1.addDataAttributes attributes).2.find "offset"
      = some (to_string ((Base64BinaryAppendedWriter.writeDataAll hw {} output declared).1.offset
          + encodedNumberOfBytes (toHeaderType hw (a.n * a.elemSize) + hw))))
    ∧ (((RawBinaryAppendedWriter.writeDataAll hw {} output declared).1.addDataAttributes
        attributes).2.find "offset"
      = some (to_string (RawBinaryAppendedWriter.writeDataAll hw {} output declared).1.offset))
    ∧ (((({} : RawBinaryAppendedWriter).addDataAttributes attributes).2.find "offset"
      = some "0"))
    ∧ ((((RawBinaryAppendedWriter.writeDataAll hw {} output declared).1.writeData hw
        output a).1.addDataAttributes attributes).2.find "offset"
      = some (to_string ((RawBinaryAppendedWriter.writeDataAll hw {} output declared).1.offset
          + (hw + toHeaderType hw (a.n * a.elemSize))))) := by
  refine ⟨?_, ?_, ?_, ?_, ?_, ?_⟩
  · exact find_assign_self _ _ _
  · exact find_assign_self _ _ _
  · exact find_assign_self _ _ _
  · exact find_assign_self _ _ _
  · exact find_assign_self _ _ _
  · exact find_assign_self _ _ _

/-! ## C2: where a record lands in the flushed stream -/

/-- C2: on both appended writers, when the arrays `pre ++ a :: post` (byte sizes fitting
`HeaderType`) are declared in order on a fresh writer, the stream `writeAppended` then
produces holds the encoded record of `a` (length prefix followed by payload, as one
base64 run resp. raw) exactly at the byte position, counted from where the flush starts
writing, that the running offset had just before `a` was declared; and that value is the
sum of the sizes of the encoded records of the arrays before `a`. -/
theorem record_begins_at_running_offset (hw : Nat) (pre : List NumArray) (a : NumArray)
    (post : List NumArray) (output : Sink)
    (hfit : ∀ x ∈ pre ++ a :: post, x.fitsHeaderType hw) :
    (((Base64BinaryAppendedWriter.writeAppended hw
          (Base64BinaryAppendedWriter.writeDataAll hw {} output (pre ++ a :: post)).1
          (Base64BinaryAppendedWriter.writeDataAll hw {} output (pre ++ a :: post)).2).2.drop
        (output.length
          + (Base64BinaryAppendedWriter.writeDataAll hw {} output pre).1.offset)).take
        (Base64BinaryAppendedWriter.encodedRecord hw a).length
      = Base64BinaryAppendedWriter.encodedRecord hw a)
    ∧ (Base64BinaryAppendedWriter.writeDataAll hw {} output pre).1.offset
      = (pre.map (fun x => (Base64BinaryAppendedWriter.encodedRecord hw x).length)).sum
    ∧ (((RawBinaryAppendedWriter.writeAppended hw
          (RawBinaryAppendedWriter.writeDataAll hw {} output (pre ++ a :: post)).1
          (RawBinaryAppendedWriter.writeDataAll hw {} output (pre ++ a :: post)).2).2.drop
        (output.length
          + (RawBinaryAppendedWriter.writeDataAll hw {} output pre).1.offset)).take
        (RawBinaryAppendedWriter.encodedRecord hw a).length
      = RawBinaryAppendedWriter.encodedRecord hw a)
    ∧ (RawBinaryAppendedWriter.writeDataAll hw {} output pre).1.offset
      = (pre.map (fun x => (RawBinaryAppendedWriter.encodedRecord hw x).length)).sum := by
  have hpre : ∀ x ∈ pre, x.fitsHeaderType hw :=
    fun x hx => hfit x (List.mem_append_left _ hx)
  have hB : (Base64BinaryAppendedWriter.writeDataAll hw {} output pre).1.offset
      = (pre.map (fun x => (Base64BinaryAppendedWriter.encodedRecord hw x).length)).sum := by
    rw [base64_writeDataAll_offset,
      map_toHeaderType_of_fits hw (fun _ s => encodedNumberOfBytes (s + hw)) _ hpre]
    simp [base64_length_encodedRecord]
  have hR : (RawBinaryAppendedWriter.writeDataAll hw {} output pre).1.offset
      = (pre.map (fun x => (RawBinaryAppendedWriter.encodedRecord hw x).length)).sum := by
    rw [raw_writeDataAll_offset,
      map_toHeaderType_of_fits hw (fun _ s => hw + s) _ hpre]
    simp [raw_length_encodedRecord]
  refine ⟨?_, hB, ?_, hR⟩
  · rw [base64_writeDataAll_snd,
      base64_flush_of_fits hw _ output output hfit]
    apply segment_of_append _ output
      (pre.map (Base64BinaryAppendedWriter.encodedRecord hw)).flatten _
      ((post.map (Base64BinaryAppendedWriter.encodedRecord hw)).flatten ++ text "\n")
    · simp [List.append_assoc]
    · rw [hB, length_flatten_map _ _ _ (fun _ _ => rfl)]
  · rw [raw_writeDataAll_snd,
      raw_flush_of_fits hw _ output output hfit]
    apply segment_of_append _ output
      (pre.map (RawBinaryAppendedWriter.encodedRecord hw)).flatten _
      ((post.map (RawBinaryAppendedWriter.encodedRecord hw)).flatten ++ text "\n")
    · simp [List.append_assoc]
    · rw [hR, length_flatten_map _ _ _ (fun _ _ => rfl)]

/-- C2, witness: a 4-byte header, the arrays of 8 and 16 bytes declared in this order,
and the record of the second one. -/
theorem record_begins_at_running_offset_witness :
    (∀ x ∈ [int32_1_2] ++ int32_four :: [], x.fitsHeaderType 4)
    ∧ ((((Base64BinaryAppendedWriter.writeAppended 4
          (Base64BinaryAppendedWriter.writeDataAll 4 {} []
            ([int32_1_2] ++ int32_four :: [])).1
          (Base64BinaryAppendedWriter.writeDataAll 4 {} []
            ([int32_1_2] ++ int32_four :: [])).2).2.drop
        (([] : Sink).length
          + (Base64BinaryAppendedWriter.writeDataAll 4 {} [] [int32_1_2]).1.offset)).take
        (Base64BinaryAppendedWriter.encodedRecord 4 int32_four).length
      = Base64BinaryAppendedWriter.encodedRecord 4 int32_four)
    ∧ (Base64BinaryAppendedWriter.writeDataAll 4 {} [] [int32_1_2]).1.offset
      = ([int32_1_2].map
          (fun x => (Base64BinaryAppendedWriter.encodedRecord 4 x).length)).sum
    ∧ (((RawBinaryAppendedWriter.writeAppended 4
          (RawBinaryAppendedWriter.writeDataAll 4 {} []
            ([int32_1_2] ++ int32_four :: [])).1
          (RawBinaryAppendedWriter.writeDataAll 4 {} []
            ([int32_1_2] ++ int32_four :: [])).2).2.drop
        (([] : Sink).length
          + (RawBinaryAppendedWriter.writeDataAll 4 {} [] [int32_1_2]).1.offset)).take
        (RawBinaryAppendedWriter.encodedRecord 4 int32_four).length
      = RawBinaryAppendedWriter.encodedRecord 4 int32_four)
    ∧ (RawBinaryAppendedWriter.writeDataAll 4 {} [] [int32_1_2]).1.offset
      = ([int32_1_2].map
          (fun x => (RawBinaryAppendedWriter.encodedRecord 4 x).length)).sum) :=
  ⟨by decide, record_begins_at_running_offset 4 [int32_1_2] int32_four [] [] (by decide)⟩

/-! ## C3: the advance of one Base64-Appended declaration -/

/-- C3: `Base64BinaryAppendedWriter::writeData` for an array whose byte size
`n * sizeof(element)` fits `HeaderType` increases the running offset by exactly
`encodedNumberOfBytes(payloadBytes + headerWidth)`, which is
`4 * ceil((payloadBytes + headerWidth) / 3)` and is the length of the single base64 run
over header and payload together. -/
theorem base64_appended_writeData_advance (hw : Nat) (self : Base64BinaryAppendedWriter)
    (output : Sink) (a : NumArray) (hfit : a.fitsHeaderType hw) :
    (self.writeData hw output a).1.offset
      = self.offset + encodedNumberOfBytes (a.n * a.elemSize + hw)
    ∧ encodedNumberOfBytes (a.n * a.elemSize + hw)
      = 4 * ⌈((a.n * a.elemSize + hw : ℕ) : ℚ) / 3⌉₊
    ∧ encodedNumberOfBytes (a.n * a.elemSize + hw)
      = (base64Run (memBytes hw (a.n * a.elemSize) ++ a.bytes)).length := by
  refine ⟨?_, encodedNumberOfBytes_eq_ceil _, ?_⟩
  · simp [Base64BinaryAppendedWriter.writeData, toHeaderType_of_fits hw a hfit]
  · rw [length_base64Run, List.length_append, length_memBytes, length_bytes a,
      Nat.add_comm]

/-- C3, witness: the array `[1, 2]` of `int` with a 4-byte header, on a fresh writer. -/
theorem base64_appended_writeData_advance_witness :
    int32_1_2.fitsHeaderType 4
    ∧ ((({} : Base64BinaryAppendedWriter).writeData 4 [] int32_1_2).1.offset
        = ({} : Base64BinaryAppendedWriter).offset
          + encodedNumberOfBytes (int32_1_2.n * int32_1_2.elemSize + 4)
      ∧ encodedNumberOfBytes (int32_1_2.n * int32_1_2.elemSize + 4)
        = 4 * ⌈((int32_1_2.n * int32_1_2.elemSize + 4 : ℕ) : ℚ) / 3⌉₊
      ∧ encodedNumberOfBytes (int32_1_2.n * int32_1_2.elemSize + 4)
        = (base64Run (memBytes 4 (int32_1_2.n * int32_1_2.elemSize)
            ++ int32_1_2.bytes)).length) :=
  ⟨by decide, base64_appended_writeData_advance 4 {} [] int32_1_2 (by decide)⟩

/-! ## C4: the start offsets of Base64-Appended -/

/-- C4, counterexample: with a 4-byte header, an array of 3 bytes advances the running
offset of a fresh Base64-Appended writer to `12`, the start offset of the array declared
next, while header width plus base64-expanded payload size is `4 + 4 * ceil(3/3) = 8`.
And an array of `2 ^ 32` bytes, whose size does not fit the 4-byte header, advances the
offset by `8` only, less than any formula in its byte size gives. -/
theorem base64_appended_start_offset_counterexample :
    (Base64BinaryAppendedWriter.writeDataAll 4 {} []
        ([char_three, int32_1_2].take 1)).1.offset = 12
    ∧ (([char_three, int32_1_2].take 1).map
        (fun a => 4 + 4 * ⌈((a.n * a.elemSize : ℕ) : ℚ) / 3⌉₊)).sum = 8
    ∧ (Base64BinaryAppendedWriter.writeDataAll 4 {} []
        ([fourGiBArray, int32_1_2].take 1)).1.offset = 8
    ∧ 8 < (([fourGiBArray, int32_1_2].take 1).map
        (fun a => 4 * ⌈((4 + a.n * a.elemSize : ℕ) : ℚ) / 3⌉₊)).sum := by
  refine ⟨by decide, ?_, base64_offset_of_wrap _ _ fourGiBArray_n rfl,
    claimed_offset_of_wrap _ _ fourGiBArray_n rfl⟩
  simp only [List.take_succ_cons, List.take_zero, List.map_cons, List.map_nil,
    List.sum_cons, List.sum_nil, ceil_third]
  decide

/-- C4, amended: on a fresh `Base64BinaryAppendedWriter`, for arrays whose byte sizes
`s_j` fit `HeaderType`, the running offset accumulated before array `i` (its start
offset) is the sum over `j < i` of `4 * ceil((headerWidth + s_j) / 3)`, the
base64-expanded size of header and payload taken together as one run. -/
theorem base64_appended_start_offset_sum (hw : Nat) (arrays : List NumArray) (output : Sink)
    (i : Nat) (hfit : ∀ a ∈ arrays, a.fitsHeaderType hw) :
    (Base64BinaryAppendedWriter.writeDataAll hw {} output (arrays.take i)).1.offset
      = ((arrays.take i).map
          (fun a => 4 * ⌈((hw + a.n * a.elemSize : ℕ) : ℚ) / 3⌉₊)).sum := by
  have htake : ∀ a ∈ arrays.take i, a.fitsHeaderType hw :=
    fun a ha => hfit a (List.mem_of_mem_take ha)
  rw [base64_writeDataAll_offset,
    map_toHeaderType_of_fits hw (fun _ s => encodedNumberOfBytes (s + hw)) _ htake]
  simp [encodedNumberOfBytes_eq_ceil, Nat.add_comm]

/-- C4, witness: a 4-byte header, the arrays of 3 and 8 bytes, and the start offset `12`
of the second one. -/
theorem base64_appended_start_offset_sum_witness :
    (∀ a ∈ [char_three, int32_1_2], a.fitsHeaderType 4)
    ∧ (Base64BinaryAppendedWriter.writeDataAll 4 {} []
        ([char_three, int32_1_2].take 1)).1.offset
      = (([char_three, int32_1_2].take 1).map
          (fun a => 4 * ⌈((4 + a.n * a.elemSize : ℕ) : ℚ) / 3⌉₊)).sum :=
  ⟨by decide, base64_appended_start_offset_sum 4 [char_three, int32_1_2] [] 1 (by decide)⟩

/-! ## C5: the running offset of Raw-Appended -/

/-- C5: on a fresh `RawBinaryAppendedWriter`, for arrays whose byte sizes fit
`HeaderType`, the running offset after the first `i` declarations is the sum over these
`i` arrays of `headerWidth + byteSize`, without base64 expansion; after all declarations
it is the sum over all arrays. -/
theorem raw_appended_offset_sum (hw : Nat) (arrays : List NumArray) (output : Sink) (i : Nat)
    (hfit : ∀ a ∈ arrays, a.fitsHeaderType hw) :
    (RawBinaryAppendedWriter.writeDataAll hw {} output (arrays.take i)).1.offset
      = ((arrays.take i).map (fun a => hw + a.n * a.elemSize)).sum
    ∧ (RawBinaryAppendedWriter.writeDataAll hw {} output arrays).1.offset
      = (arrays.map (fun a => hw + a.n * a.elemSize)).sum := by
  have htake : ∀ a ∈ arrays.take i, a.fitsHeaderType hw :=
    fun a ha => hfit a (List.mem_of_mem_take ha)
  constructor
  · rw [raw_writeDataAll_offset,
      map_toHeaderType_of_fits hw (fun _ s => hw + s) _ htake]
    simp
  · rw [raw_writeDataAll_offset,
      map_toHeaderType_of_fits hw (fun _ s => hw + s) _ hfit]
    simp

/-- C5, witness: a 4-byte header and arrays of 8 and 16 bytes give the running offset
`12` after the first declaration and `32` after both. -/
theorem raw_appended_offset_sum_witness :
    (∀ a ∈ [int32_1_2, int32_four], a.fitsHeaderType 4)
    ∧ ((RawBinaryAppendedWriter.writeDataAll 4 {} []
          ([int32_1_2, int32_four].take 1)).1.offset = 12
      ∧ (RawBinaryAppendedWriter.writeDataAll 4 {} []
          [int32_1_2, int32_four]).1.offset = 32) :=
  ⟨by decide, raw_appended_offset_sum 4 [int32_1_2, int32_four] [] 1 (by decide)⟩

/-! ## C6: how many bytes the flush writes -/

/-- C6, counterexample: with a 4-byte header, after the array `[1, 2]` of `int` the
running offset of Base64-Appended is `16` and `writeAppended` writes `17` bytes; after
arrays of 8 and 16 bytes the running offset of Raw-Appended is `32` and `writeAppended`
writes `33` bytes. -/
theorem writeAppended_total_bytes_counterexample :
    (Base64BinaryAppendedWriter.writeDataAll 4 {} [] [int32_1_2]).1.offset = 16
    ∧ (Base64BinaryAppendedWriter.writeAppended 4
        (Base64BinaryAppendedWriter.writeDataAll 4 {} [] [int32_1_2]).1 []).2.length = 17
    ∧ (RawBinaryAppendedWriter.writeDataAll 4 {} [] [int32_1_2, int32_four]).1.offset = 32
    ∧ (RawBinaryAppendedWriter.writeAppended 4
        (RawBinaryAppendedWriter.writeDataAll 4 {} [] [int32_1_2, int32_four]).1
        []).2.length = 33 := by
  decide

/-- C6, amended: on both appended writers, for every list of arrays declared on a fresh
writer, `writeAppended` keeps what the stream held and writes the final value of the
running offset plus one bytes: the records take exactly as many bytes as the running
offset says, and one line feed follows them. -/
theorem writeAppended_total_bytes (hw : Nat) (arrays : List NumArray) (output : Sink) :
    ((Base64BinaryAppendedWriter.writeAppended hw
          (Base64BinaryAppendedWriter.writeDataAll hw {} output arrays).1
          (Base64BinaryAppendedWriter.writeDataAll hw {} output arrays).2).2.length
        = output.length
          + (Base64BinaryAppendedWriter.writeDataAll hw {} output arrays).1.offset + 1
      ∧ (Base64BinaryAppendedWriter.writeAppended hw
          (Base64BinaryAppendedWriter.writeDataAll hw {} output arrays).1
          (Base64BinaryAppendedWriter.writeDataAll hw {} output arrays).2).2.take
            output.length = output
      ∧ (Base64BinaryAppendedWriter.writeAppended hw
          (Base64BinaryAppendedWriter.writeDataAll hw {} output arrays).1
          (Base64BinaryAppendedWriter.writeDataAll hw {} output arrays).2).2.drop
            (output.length
              + (Base64BinaryAppendedWriter.writeDataAll hw {} output arrays).1.offset)
        = text "\n")
    ∧ ((RawBinaryAppendedWriter.writeAppended hw
          (RawBinaryAppendedWriter.writeDataAll hw {} output arrays).1
          (RawBinaryAppendedWriter.writeDataAll hw {} output arrays).2).2.length
        = output.length
          + (RawBinaryAppendedWriter.writeDataAll hw {} output arrays).1.offset + 1
      ∧ (RawBinaryAppendedWriter.writeAppended hw
          (RawBinaryAppendedWriter.writeDataAll hw {} output arrays).1
          (RawBinaryAppendedWriter.writeDataAll hw {} output arrays).2).2.take
            output.length = output
      ∧ (RawBinaryAppendedWriter.writeAppended hw
          (RawBinaryAppendedWriter.writeDataAll hw {} output arrays).1
          (RawBinaryAppendedWriter.writeDataAll hw {} output arrays).2).2.drop
            (output.length
              + (RawBinaryAppendedWriter.writeDataAll hw {} output arrays).1.offset)
        = text "\n") := by
  constructor
  · rw [base64_writeDataAll_snd,
      base64_flush_declared,
      base64_offset_eq_length hw arrays output]
    refine ⟨?_, ?_, ?_⟩
    · simp only [List.length_append]
      rfl
    · rw [List.append_assoc, List.take_left]
    · rw [← List.length_append, List.drop_left]
  · rw [raw_writeDataAll_snd,
      raw_flush_declared,
      raw_offset_eq_length hw arrays output]
    refine ⟨?_, ?_, ?_⟩
    · simp only [List.length_append]
      rfl
    · rw [List.append_assoc, List.take_left]
    · rw [← List.length_append, List.drop_left]

/-! ## C7: the flush of Base64-Appended -/

/-- C7, counterexample: with a 4-byte header, an array of `2 ^ 32` bytes is flushed as
the run `AAAAAA==`, which decodes to the four bytes of a zero length and nothing else,
not to a prefix followed by the `2 ^ 32` original bytes of the array. -/
theorem base64_appended_flush_counterexample :
    (Base64BinaryAppendedWriter.writeAppended 4
        (Base64BinaryAppendedWriter.writeDataAll 4 {} [] [fourGiBArray]).1
        (Base64BinaryAppendedWriter.writeDataAll 4 {} [] [fourGiBArray]).2).2
      = text "AAAAAA==\n"
    ∧ base64Decode (text "AAAAAA==") = some [0, 0, 0, 0]
    ∧ (memBytes 4 (fourGiBArray.n * fourGiBArray.elemSize) ++ fourGiBArray.bytes).length
      = 4 + 2 ^ 32
    ∧ base64Decode (text "AAAAAA==")
      ≠ some (memBytes 4 (fourGiBArray.n * fourGiBArray.elemSize) ++ fourGiBArray.bytes) := by
  exact ⟨base64_flush_of_wrap _ fourGiBArray_n rfl, by decide,
    record_length_of_wrap _ fourGiBArray_n rfl, decoded_ne_of_wrap _ fourGiBArray_n rfl⟩

/-- C7, amended: for every list of arrays whose byte sizes fit `HeaderType`, declared in
order on a fresh `Base64BinaryAppendedWriter` and then flushed, `writeAppended` adds to
the stream the records in declaration order, each as one self-contained base64 run, and
then a line feed; base64-decoding the run of an array yields exactly the
`HeaderType`-width prefix, which holds the byte size of the array, followed by the
original bytes of the array. -/
theorem base64_appended_flush_fifo (hw : Nat) (arrays : List NumArray) (output : Sink)
    (hfit : ∀ a ∈ arrays, a.fitsHeaderType hw) :
    (Base64BinaryAppendedWriter.writeAppended hw
        (Base64BinaryAppendedWriter.writeDataAll hw {} output arrays).1
        (Base64BinaryAppendedWriter.writeDataAll hw {} output arrays).2).2
      = output ++ (arrays.map (Base64BinaryAppendedWriter.encodedRecord hw)).flatten
        ++ text "\n"
    ∧ ∀ a ∈ arrays,
        base64Decode (Base64BinaryAppendedWriter.encodedRecord hw a)
          = some (memBytes hw (a.n * a.elemSize) ++ a.bytes)
        ∧ (memBytes hw (a.n * a.elemSize)).length = hw
        ∧ memValue (memBytes hw (a.n * a.elemSize)) = a.n * a.elemSize := by
  constructor
  · rw [base64_writeDataAll_snd,
      base64_flush_of_fits hw _ output output hfit]
  · intro a ha
    refine ⟨base64Decode_base64Run _, length_memBytes _ _, ?_⟩
    rw [memValue_memBytes]
    exact Nat.mod_eq_of_lt (hfit a ha)

/-- C7, witness: the array `[1, 2]` of `int` with a 4-byte header; its run decodes to
the prefix `8` followed by the 8 raw bytes. -/
theorem base64_appended_flush_fifo_witness :
    (∀ a ∈ [int32_1_2], a.fitsHeaderType 4)
    ∧ ((Base64BinaryAppendedWriter.writeAppended 4
          (Base64BinaryAppendedWriter.writeDataAll 4 {} [] [int32_1_2]).1
          (Base64BinaryAppendedWriter.writeDataAll 4 {} [] [int32_1_2]).2).2
        = [] ++ ([int32_1_2].map (Base64BinaryAppendedWriter.encodedRecord 4)).flatten
          ++ text "\n"
      ∧ ∀ a ∈ [int32_1_2],
          base64Decode (Base64BinaryAppendedWriter.encodedRecord 4 a)
            = some (memBytes 4 (a.n * a.elemSize) ++ a.bytes)
          ∧ (memBytes 4 (a.n * a.elemSize)).length = 4
          ∧ memValue (memBytes 4 (a.n * a.elemSize)) = a.n * a.elemSize)
    ∧ base64Decode (Base64BinaryAppendedWriter.encodedRecord 4 int32_1_2)
      = some [8, 0, 0, 0, 1, 0, 0, 0, 2, 0, 0, 0] :=
  ⟨by decide, base64_appended_flush_fifo 4 [int32_1_2] [] (by decide), by decide⟩

/-! ## C8: the flush of Raw-Appended -/

/-- C8: after any list of arrays was declared on a fresh `RawBinaryAppendedWriter`, the
ledger holds one record per array in declaration order (the array's bytes and its byte
length as a `HeaderType`), and `writeAppended` adds to the stream, record by record in
that order, the `sizeof(HeaderType)` bytes of the in-memory representation of the
record's byte length followed by that many bytes of the record's payload, unencoded,
and then a line feed. For an array whose byte size fits `HeaderType` these are the
representation of the byte size and all bytes of the array, unchanged. -/
theorem raw_appended_flush_fifo (hw : Nat) (arrays : List NumArray) (output : Sink) :
    (RawBinaryAppendedWriter.writeDataAll hw {} output arrays).1.appendedData
      = arrays.map (fun a => (a.bytes, toHeaderType hw (a.n * a.elemSize)))
    ∧ (RawBinaryAppendedWriter.writeAppended hw
        (RawBinaryAppendedWriter.writeDataAll hw {} output arrays).1
        (RawBinaryAppendedWriter.writeDataAll hw {} output arrays).2).2
      = output
        ++ (((RawBinaryAppendedWriter.writeDataAll hw {} output arrays).1.appendedData).map
            (fun dataSet => memBytes hw dataSet.2 ++ dataSet.1.take dataSet.2)).flatten
        ++ text "\n"
    ∧ ∀ a ∈ arrays, a.fitsHeaderType hw →
        memBytes hw (toHeaderType hw (a.n * a.elemSize))
            ++ a.bytes.take (toHeaderType hw (a.n * a.elemSize))
          = memBytes hw (a.n * a.elemSize) ++ a.bytes := by
  refine ⟨?_, ?_, ?_⟩
  · simp [raw_writeDataAll_appendedData]
  · simp [RawBinaryAppendedWriter.writeAppended, raw_writeDataAll_snd,
      raw_foldl_writeRecord]
  · intro a _ hfit
    rw [take_bytes hw a hfit, toHeaderType_of_fits hw a hfit]

/-- C8, witness: a 4-byte header and the arrays of 8 and 16 bytes: the flush writes the
length `8`, the 8 bytes of the first array, the length `16`, the 16 bytes of the second
array and a line feed. -/
theorem raw_appended_flush_fifo_witness :
    int32_four.fitsHeaderType 4
    ∧ (memBytes 4 (toHeaderType 4 (int32_four.n * int32_four.elemSize))
          ++ int32_four.bytes.take (toHeaderType 4 (int32_four.n * int32_four.elemSize))
        = memBytes 4 (int32_four.n * int32_four.elemSize) ++ int32_four.bytes)
    ∧ (RawBinaryAppendedWriter.writeAppended 4
        (RawBinaryAppendedWriter.writeDataAll 4 {} [] [int32_1_2, int32_four]).1
        (RawBinaryAppendedWriter.writeDataAll 4 {} [] [int32_1_2, int32_four]).2).2
      = [8, 0, 0, 0, 1, 0, 0, 0, 2, 0, 0, 0,
         16, 0, 0, 0, 3, 0, 0, 0, 4, 0, 0, 0, 5, 0, 0, 0, 6, 0, 0, 0, 10] :=
  ⟨by decide,
   (raw_appended_flush_fifo 4 [int32_1_2, int32_four] []).2.2 int32_four (by decide)
     (by decide),
   by decide⟩

/-! ## C9: Base64-Inline -/

/-- C9: for an array whose byte size `b = n * sizeof(element)` fits `HeaderType`,
`Base64BinaryWriter::writeData` writes at once one base64 run and a line feed; the run
decodes to exactly the `HeaderType`-width prefix, which holds the value `b`, followed by
the `b` original payload bytes, and has `4 * ceil((headerWidth + b) / 3)` characters. -/
theorem base64_inline_roundtrip (hw : Nat) (self : Base64BinaryWriter) (output : Sink)
    (a : NumArray) (hfit : a.fitsHeaderType hw) :
    (self.writeData hw output a).2
      = output ++ base64Run (memBytes hw (a.n * a.elemSize) ++ a.bytes) ++ text "\n"
    ∧ base64Decode (base64Run (memBytes hw (a.n * a.elemSize) ++ a.bytes))
      = some (memBytes hw (a.n * a.elemSize) ++ a.bytes)
    ∧ (memBytes hw (a.n * a.elemSize)).length = hw
    ∧ memValue (memBytes hw (a.n * a.elemSize)) = a.n * a.elemSize
    ∧ a.bytes.length = a.n * a.elemSize
    ∧ (base64Run (memBytes hw (a.n * a.elemSize) ++ a.bytes)).length
      = 4 * ⌈((hw + a.n * a.elemSize : ℕ) : ℚ) / 3⌉₊ := by
  refine ⟨?_, base64Decode_base64Run _, length_memBytes _ _, ?_, length_bytes a, ?_⟩
  · have h := transcode_two_parts output (memBytes hw (toHeaderType hw (a.n * a.elemSize)))
      a.bytes
    rw [toHeaderType_of_fits hw a hfit] at h
    simp only [Base64BinaryWriter.writeData, toHeaderType_of_fits hw a hfit]
    exact congrArg (· ++ text "\n") h
  · rw [memValue_memBytes]
    exact Nat.mod_eq_of_lt hfit
  · rw [length_base64Run, List.length_append, length_memBytes, length_bytes a,
      encodedNumberOfBytes_eq_ceil]

/-- C9, witness: the array `[1, 2]` of `int` with a 4-byte header is written as
`CAAAAAEAAAACAAAA` and a line feed. -/
theorem base64_inline_roundtrip_witness :
    int32_1_2.fitsHeaderType 4
    ∧ ((({} : Base64BinaryWriter).writeData 4 [] int32_1_2).2
        = [] ++ base64Run (memBytes 4 (int32_1_2.n * int32_1_2.elemSize) ++ int32_1_2.bytes)
          ++ text "\n"
      ∧ base64Decode (base64Run (memBytes 4 (int32_1_2.n * int32_1_2.elemSize)
          ++ int32_1_2.bytes))
        = some (memBytes 4 (int32_1_2.n * int32_1_2.elemSize) ++ int32_1_2.bytes)
      ∧ (memBytes 4 (int32_1_2.n * int32_1_2.elemSize)).length = 4
      ∧ memValue (memBytes 4 (int32_1_2.n * int32_1_2.elemSize))
        = int32_1_2.n * int32_1_2.elemSize
      ∧ int32_1_2.bytes.length = int32_1_2.n * int32_1_2.elemSize
      ∧ (base64Run (memBytes 4 (int32_1_2.n * int32_1_2.elemSize)
          ++ int32_1_2.bytes)).length
        = 4 * ⌈((4 + int32_1_2.n * int32_1_2.elemSize : ℕ) : ℚ) / 3⌉₊)
    ∧ (({} : Base64BinaryWriter).writeData 4 [] int32_1_2).2 = text "CAAAAAEAAAACAAAA\n" :=
  ⟨by decide, base64_inline_roundtrip 4 {} [] int32_1_2 (by decide), by decide⟩

/-! ## C10: Ascii -/

/-- C10, the code at the failing input: for the array `[4294967295]` of `unsigned int`,
`writeNumber` formats with the signed conversion `%d` and `AsciiWriter::writeData`
writes `-1`, a space and a line feed, while the decimal text of the scalar is
`4294967295`. The array `[1, 2]` of `int` is written as `1 2` with a space after each
number and a line feed, and an array without elements as a line feed alone. -/
theorem ascii_unsigned_int_written_with_signed_conversion (floatText : Int → String) :
    AsciiWriter.writeData floatText {} [] ⟨⟨.uInt, true⟩, [4294967295]⟩
      = .ok ({}, text "-1 \n")
    ∧ CType.load .uInt 4294967295 = 4294967295
    ∧ text (Int.repr 4294967295) ++ text " " ++ text "\n" = text "4294967295 \n"
    ∧ AsciiWriter.writeData floatText {} [] int32_1_2 = .ok ({}, text "1 2 \n")
    ∧ AsciiWriter.writeData floatText {} [] ⟨⟨.int, true⟩, []⟩ = .ok ({}, text "\n") := by
  refine ⟨?_, by decide, by decide, ?_, ?_⟩
  · simp only [AsciiWriter.writeData, AsciiWriter.writeScalars, detail.writeNumber]
    decide
  · simp only [AsciiWriter.writeData, AsciiWriter.writeScalars, detail.writeNumber,
      int32_1_2]
    decide
  · simp only [AsciiWriter.writeData, AsciiWriter.writeScalars]
    decide

/-! ## Lemmas: decimal text -/

theorem digitChar_value (k : Nat) (hk : k < 10) :
    (Nat.digitChar k).isDigit = true ∧ (Nat.digitChar k).toNat - 48 = k := by
  interval_cases k <;> decide

theorem parseDigitsFrom_toDigitsCore (fuel : Nat) :
    ∀ (n : Nat) (ds : List Char), n < fuel →
      parseDigitsFrom 0 (Nat.toDigitsCore 10 fuel n ds) = parseDigitsFrom n ds := by
  induction fuel with
  | zero => intro n ds h; omega
  | succ fuel ih =>
    intro n ds h
    have hd := digitChar_value (n % 10) (Nat.mod_lt _ (by norm_num))
    simp only [Nat.toDigitsCore]
    split_ifs with h0
    · simp only [parseDigitsFrom, hd.1, if_true, hd.2]
      congr 1
      omega
    · rw [ih (n / 10) _ (by omega)]
      simp only [parseDigitsFrom, hd.1, if_true, hd.2]
      congr 1
      omega

theorem toDigitsCore_ne_nil (fuel : Nat) :
    ∀ (n : Nat) (ds : List Char), ds ≠ [] ∨ 0 < fuel → Nat.toDigitsCore 10 fuel n ds ≠ [] := by
  induction fuel with
  | zero =>
    intro n ds h
    rcases h with h | h
    · simpa [Nat.toDigitsCore] using h
    · omega
  | succ fuel ih =>
    intro n ds _
    simp only [Nat.toDigitsCore]
    split_ifs with h0
    · simp
    · exact ih _ _ (Or.inl (by simp))

theorem parseNumeral_natRepr (n : Nat) : parseNumeral (Nat.repr n).toList = some (n : Int) := by
  have hp : parseDigitsFrom 0 (Nat.toDigits 10 n) = some n := by
    rw [Nat.toDigits, parseDigitsFrom_toDigitsCore _ _ _ (Nat.lt_succ_self n)]
    rfl
  have hne : Nat.toDigits 10 n ≠ [] := toDigitsCore_ne_nil _ _ _ (Or.inr (Nat.succ_pos n))
  have hl : (Nat.repr n).toList = Nat.toDigits 10 n := rfl
  rw [hl]
  cases hds : Nat.toDigits 10 n with
  | nil => exact absurd hds hne
  | cons c cs =>
    rw [hds] at hp
    have hc : c ≠ '-' := by
      intro h
      subst h
      simp [parseDigitsFrom] at hp
    simp [parseNumeral, hc, hp]

theorem parseNumeral_intRepr (x : Int) : parseNumeral (Int.repr x).toList = some x := by
  cases x with
  | ofNat n => exact parseNumeral_natRepr n
  | negSucc m =>
    have hp : parseDigitsFrom 0 (Nat.toDigits 10 (m + 1)) = some (m + 1) := by
      rw [Nat.toDigits, parseDigitsFrom_toDigitsCore _ _ _ (Nat.lt_succ_self _)]
      rfl
    have hne : Nat.toDigits 10 (m + 1) ≠ [] :=
      toDigitsCore_ne_nil _ _ _ (Or.inr (Nat.succ_pos _))
    have hl : (Int.repr (Int.negSucc m)).toList = '-' :: Nat.toDigits 10 (m + 1) := rfl
    rw [hl]
    simp [parseNumeral, hne, hp, Int.negSucc_eq]

theorem repr_not_cut (x : Int) (hlo : -(2 : Int) ^ 63 ≤ x) (hhi : x < 2 ^ 64) :
    String.mk ((Int.repr x).toList.take 63) = Int.repr x := by
  have key : (Int.repr x).toList.length ≤ 63 := by
    cases x with
    | ofNat n =>
      have h := Nat.repr_length n 20 (by norm_num) (by
        have : (n : Int) < 2 ^ 64 := hhi
        norm_num at this ⊢
        omega)
      show (Nat.repr n).length ≤ 63
      omega
    | negSucc m =>
      have h := Nat.repr_length (m + 1) 20 (by norm_num) (by
        have : -(2 : Int) ^ 63 ≤ Int.negSucc m := hlo
        rw [Int.negSucc_eq] at this
        norm_num at this ⊢
        omega)
      have hl : (Int.repr (Int.negSucc m)).toList = '-' :: (Nat.repr (m + 1)).toList := rfl
      rw [hl, List.length_cons]
      have : (Nat.repr (m + 1)).toList.length = (Nat.repr (m + 1)).length := rfl
      omega
  rw [List.take_of_length_le key]
  rfl

theorem load_idem (T : CType) (v : Int) : T.load (T.load v) = T.load v := by
  cases T <;> simp only [CType.load, CType.isSigned, CType.sizeof, if_true, toSigned,
    toUnsigned] <;> norm_num

theorem load_range (T : CType) (v : Int) :
    -(2 : Int) ^ 63 ≤ T.load v ∧ T.load v < 2 ^ 64 := by
  cases T <;> simp only [CType.load, CType.isSigned, CType.sizeof, if_true, toSigned,
    toUnsigned] <;> norm_num <;> try omega

theorem writeNumber_canonical (floatText : Int → String) (T : CType) (v : Int)
    (hT : T = .longLong ∨ T = .long ∨ T = .int ∨ T = .short ∨ T = .char ∨ T = .uLongLong) :
    detail.writeNumber floatText T (T.load v) = .ok (Int.repr (T.load v)) := by
  have hcut := repr_not_cut (T.load v) (load_range T v).1 (load_range T v).2
  have hidem := load_idem T v
  rcases hT with h | h | h | h | h | h <;> subst h <;>
    simp +decide only [detail.writeNumber, snprintf, Except.ok.injEq, if_true, if_false,
      or_self, or_true, true_or] <;>
    simp only [CType.load, CType.isSigned, CType.sizeof, if_true] at hcut hidem ⊢ <;>
    norm_num at hcut hidem ⊢ <;>
    simp only [hidem, hcut]

theorem parseDecimal_intRepr (T : CType) (v : Int) :
    parseDecimal T (Int.repr (T.load v)) = some (T.load v) := by
  unfold parseDecimal
  rw [parseNumeral_intRepr]
  simp [load_idem]

theorem roundTrips_of_matching_conversion (floatText : Int → String) (T : CType)
    (hT : T = .longLong ∨ T = .long ∨ T = .int ∨ T = .short ∨ T = .char ∨ T = .uLongLong) :
    RoundTrips floatText T :=
  fun v => ⟨Int.repr (T.load v), writeNumber_canonical floatText T v hT,
    parseDecimal_intRepr T v⟩

theorem not_roundTrips_of_minus_one (floatText : Int → String) (T : CType) (v : Int)
    (hw : detail.writeNumber floatText T (T.load v) = .ok "-1")
    (hp : parseDecimal T "-1" = none) : ¬ RoundTrips floatText T := by
  intro h
  obtain ⟨buffer, hb, hparse⟩ := h v
  rw [hw] at hb
  have hbuf : buffer = "-1" := (Except.ok.inj hb).symm
  rw [hbuf, hp] at hparse
  exact Option.noConfusion hparse

theorem writeScalars_canonical (floatText : Int → String) (T : IteratorType)
    (hT : T.pointee = .longLong ∨ T.pointee = .long ∨ T.pointee = .int ∨ T.pointee = .short
      ∨ T.pointee = .char ∨ T.pointee = .uLongLong)
    (elems : List Int) (output : Sink) :
    AsciiWriter.writeScalars floatText T output elems
      = .ok (output
          ++ elems.flatMap (fun v => text (Int.repr (T.pointee.load v)) ++ text " ")) := by
  have hne : T ≠ ⟨.sChar, true⟩ := by
    intro h
    rw [h] at hT
    simp at hT
  induction elems generalizing output with
  | nil => simp [AsciiWriter.writeScalars]
  | cons v rest ih =>
    simp only [AsciiWriter.writeScalars, if_neg hne,
      writeNumber_canonical floatText T.pointee v hT, ih, List.flatMap_cons,
      List.append_assoc]

/-! ## C11: formatting then parsing -/

/-- C11, the code at the failing input: for the value `4294967295` of `unsigned int`,
`writeNumber` formats with the signed conversion `%d` and leaves `-1` in the buffer,
which is not a decimal integer of kind `unsigned int`, while `4294967295` would parse
back to the value. Formatting then parsing round-trips for no unsigned kind formatted
with a signed conversion (`unsigned long`, `unsigned int`, `unsigned short`,
`unsigned char`); it round-trips for `unsigned long long` and for the signed kinds
`long long`, `long`, `int`, `short` and `char`. -/
theorem writeNumber_unsigned_int_signed_conversion (floatText : Int → String) :
    detail.writeNumber floatText .uInt (CType.load .uInt 4294967295) = .ok "-1"
    ∧ CType.load .uInt 4294967295 = 4294967295
    ∧ parseDecimal .uInt "-1" = none
    ∧ parseDecimal .uInt "4294967295" = some 4294967295
    ∧ (¬ RoundTrips floatText .uLong ∧ ¬ RoundTrips floatText .uInt
      ∧ ¬ RoundTrips floatText .uShort ∧ ¬ RoundTrips floatText .uChar)
    ∧ (RoundTrips floatText .uLongLong ∧ RoundTrips floatText .longLong
      ∧ RoundTrips floatText .long ∧ RoundTrips floatText .int
      ∧ RoundTrips floatText .short ∧ RoundTrips floatText .char) := by
  have hInt : detail.writeNumber floatText .uInt (CType.load .uInt 4294967295) = .ok "-1" := by
    simp only [detail.writeNumber]
    decide
  have hLong : detail.writeNumber floatText .uLong (CType.load .uLong 18446744073709551615)
      = .ok "-1" := by
    simp only [detail.writeNumber]
    decide
  have hShort : detail.writeNumber floatText .uShort (CType.load .uShort 65535)
      = .ok "-1" := by
    simp only [detail.writeNumber]
    decide
  have hChar : detail.writeNumber floatText .uChar (CType.load .uChar 255) = .ok "-1" := by
    simp only [detail.writeNumber]
    decide
  refine ⟨hInt, by decide, by decide, by decide, ⟨?_, ?_, ?_, ?_⟩, ⟨?_, ?_, ?_, ?_, ?_, ?_⟩⟩
  · exact not_roundTrips_of_minus_one floatText .uLong _ hLong (by decide)
  · exact not_roundTrips_of_minus_one floatText .uInt _ hInt (by decide)
  · exact not_roundTrips_of_minus_one floatText .uShort _ hShort (by decide)
  · exact not_roundTrips_of_minus_one floatText .uChar _ hChar (by decide)
  · exact roundTrips_of_matching_conversion floatText _ (by simp)
  · exact roundTrips_of_matching_conversion floatText _ (by simp)
  · exact roundTrips_of_matching_conversion floatText _ (by simp)
  · exact roundTrips_of_matching_conversion floatText _ (by simp)
  · exact roundTrips_of_matching_conversion floatText _ (by simp)
  · exact roundTrips_of_matching_conversion floatText _ (by simp)

/-! ## C12: the flush of an empty ledger -/

/-- C12, counterexample: on a writer on which no array was ever declared, `writeAppended`
writes one byte, the line feed, on Base64-Appended as on Raw-Appended. -/
theorem writeAppended_empty_ledger_counterexample :
    (({} : Base64BinaryAppendedWriter).writeAppended 4 []).2 = text "\n"
    ∧ (({} : Base64BinaryAppendedWriter).writeAppended 4 []).2.length = 1
    ∧ (({} : RawBinaryAppendedWriter).writeAppended 4 []).2 = text "\n"
    ∧ (({} : RawBinaryAppendedWriter).writeAppended 4 []).2.length = 1 := by
  decide

/-- C12, amended: on both appended writers, `writeAppended` on a writer whose ledger is
empty writes no record: it adds exactly one line feed to the stream. -/
theorem writeAppended_empty_ledger (hw : Nat) (b : Base64BinaryAppendedWriter)
    (r : RawBinaryAppendedWriter) (output : Sink)
    (hb : b.appendedData = []) (hr : r.appendedData = []) :
    (b.writeAppended hw output).2 = output ++ text "\n"
    ∧ (r.writeAppended hw output).2 = output ++ text "\n" := by
  simp [Base64BinaryAppendedWriter.writeAppended, RawBinaryAppendedWriter.writeAppended,
    hb, hr]

/-- C12, witness: the fresh writers, a 4-byte header and an empty stream. -/
theorem writeAppended_empty_ledger_witness :
    (({} : Base64BinaryAppendedWriter).appendedData = []
      ∧ ({} : RawBinaryAppendedWriter).appendedData = [])
    ∧ ((({} : Base64BinaryAppendedWriter).writeAppended 4 []).2 = [] ++ text "\n"
      ∧ (({} : RawBinaryAppendedWriter).writeAppended 4 []).2 = [] ++ text "\n") :=
  ⟨⟨rfl, rfl⟩, writeAppended_empty_ledger 4 {} {} [] rfl rfl⟩

/-! ## C13: a second flush -/

/-- C13, counterexample: with a 4-byte header, after the array `[1, 2]` of `int` was
declared, a second `writeAppended` writes the run and the line feed again, 17 more
bytes; on Raw-Appended it writes the 13 bytes of the first flush again. -/
theorem second_writeAppended_counterexample :
    (Base64BinaryAppendedWriter.writeAppended 4
        (Base64BinaryAppendedWriter.writeDataAll 4 {} [] [int32_1_2]).1 []).2
      = text "CAAAAAEAAAACAAAA\n"
    ∧ (Base64BinaryAppendedWriter.writeAppended 4
        (Base64BinaryAppendedWriter.writeAppended 4
          (Base64BinaryAppendedWriter.writeDataAll 4 {} [] [int32_1_2]).1 []).1
        (Base64BinaryAppendedWriter.writeAppended 4
          (Base64BinaryAppendedWriter.writeDataAll 4 {} [] [int32_1_2]).1 []).2).2
      = text "CAAAAAEAAAACAAAA\nCAAAAAEAAAACAAAA\n"
    ∧ (RawBinaryAppendedWriter.writeAppended 4
        (RawBinaryAppendedWriter.writeDataAll 4 {} [] [int32_1_2]).1 []).2.length = 13
    ∧ (RawBinaryAppendedWriter.writeAppended 4
        (RawBinaryAppendedWriter.writeAppended 4
          (RawBinaryAppendedWriter.writeDataAll 4 {} [] [int32_1_2]).1 []).1
        (RawBinaryAppendedWriter.writeAppended 4
          (RawBinaryAppendedWriter.writeDataAll 4 {} [] [int32_1_2]).1 []).2).2.length
      = 26 := by
  decide

/-- C13, amended: on both appended writers, for every writer state, a second
`writeAppended` after a first flush keeps what the first one wrote and writes the same
bytes once more: every record of the ledger again, and a line feed. -/
theorem second_writeAppended_repeats (hw : Nat) (b : Base64BinaryAppendedWriter)
    (r : RawBinaryAppendedWriter) (output : Sink) :
    ((b.writeAppended hw output).2 = output ++ (b.writeAppended hw []).2
      ∧ (Base64BinaryAppendedWriter.writeAppended hw (b.writeAppended hw output).1
          (b.writeAppended hw output).2).2
        = (b.writeAppended hw output).2 ++ (b.writeAppended hw []).2)
    ∧ ((r.writeAppended hw output).2 = output ++ (r.writeAppended hw []).2
      ∧ (RawBinaryAppendedWriter.writeAppended hw (r.writeAppended hw output).1
          (r.writeAppended hw output).2).2
        = (r.writeAppended hw output).2 ++ (r.writeAppended hw []).2) := by
  simp [Base64BinaryAppendedWriter.writeAppended, RawBinaryAppendedWriter.writeAppended,
    base64_foldl_writeRecord, raw_foldl_writeRecord, List.append_assoc]

/-! ## C14: the flush does not change the writer -/

/-- C14: on both appended writers, for every writer state, after `writeAppended` the
ledger holds the same records in the same order and the running offset has the same
value as before the call. -/
theorem writeAppended_keeps_state (hw : Nat) (b : Base64BinaryAppendedWriter)
    (r : RawBinaryAppendedWriter) (output : Sink) :
    ((b.writeAppended hw output).1.appendedData = b.appendedData
      ∧ (b.writeAppended hw output).1.offset = b.offset)
    ∧ ((r.writeAppended hw output).1.appendedData = r.appendedData
      ∧ (r.writeAppended hw output).1.offset = r.offset) :=
  ⟨⟨rfl, rfl⟩, ⟨rfl, rfl⟩⟩

/-! ## C15: a declaration on an appended writer -/

theorem recorded_length_of_wrap (a : NumArray) (hn : a.n = 2 ^ 32) (hs : a.elemSize = 1) :
    (({} : Base64BinaryAppendedWriter).writeData 4 [] a).1.appendedData = [(a.bytes, 0)]
    ∧ (({} : RawBinaryAppendedWriter).writeData 4 [] a).1.appendedData = [(a.bytes, 0)]
    ∧ a.n * a.elemSize = 2 ^ 32 := by
  refine ⟨?_, ?_, ?_⟩
  · simp only [Base64BinaryAppendedWriter.writeData, toHeaderType_of_wrap a hn hs,
      List.nil_append]
  · simp only [RawBinaryAppendedWriter.writeData, toHeaderType_of_wrap a hn hs,
      List.nil_append]
  · rw [hn, hs, Nat.mul_one]

/-- C15, counterexample: with a 4-byte header, `writeData` for an array of `2 ^ 32` bytes
records the byte length `0`, not the byte size `2 ^ 32` of the array, on Base64-Appended
as on Raw-Appended. -/
theorem appended_writeData_counterexample :
    (({} : Base64BinaryAppendedWriter).writeData 4 [] fourGiBArray).1.appendedData
      = [(fourGiBArray.bytes, 0)]
    ∧ (({} : RawBinaryAppendedWriter).writeData 4 [] fourGiBArray).1.appendedData
      = [(fourGiBArray.bytes, 0)]
    ∧ fourGiBArray.n * fourGiBArray.elemSize = 2 ^ 32 :=
  recorded_length_of_wrap fourGiBArray fourGiBArray_n rfl

/-- C15, amended: on both appended writers, for every writer state and every array whose
byte size fits `HeaderType`, `writeData` leaves the stream as it is, so it writes zero
bytes, and the ledger after the call is the ledger before the call followed by exactly
one record: the reference to the array's bytes, with the byte length
`n * sizeof(element)`. -/
theorem appended_writeData_defers (hw : Nat) (b : Base64BinaryAppendedWriter)
    (r : RawBinaryAppendedWriter) (output : Sink) (a : NumArray)
    (hfit : a.fitsHeaderType hw) :
    ((b.writeData hw output a).2 = output
      ∧ (b.writeData hw output a).1.appendedData
        = b.appendedData ++ [(a.bytes, a.n * a.elemSize)])
    ∧ ((r.writeData hw output a).2 = output
      ∧ (r.writeData hw output a).1.appendedData
        = r.appendedData ++ [(a.bytes, a.n * a.elemSize)]) := by
  simp [Base64BinaryAppendedWriter.writeData, RawBinaryAppendedWriter.writeData,
    toHeaderType_of_fits hw a hfit]

/-- C15, witness: a 4-byte header, the array `[1, 2]` of `int`, and writers on which an
array of 16 bytes was declared before. -/
theorem appended_writeData_defers_witness :
    int32_1_2.fitsHeaderType 4
    ∧ ((((Base64BinaryAppendedWriter.writeDataAll 4 {} [] [int32_four]).1.writeData 4
          (text "<") int32_1_2).2 = text "<"
        ∧ ((Base64BinaryAppendedWriter.writeDataAll 4 {} [] [int32_four]).1.writeData 4
            (text "<") int32_1_2).1.appendedData
          = (Base64BinaryAppendedWriter.writeDataAll 4 {} [] [int32_four]).1.appendedData
            ++ [(int32_1_2.bytes, int32_1_2.n * int32_1_2.elemSize)])
      ∧ (((RawBinaryAppendedWriter.writeDataAll 4 {} [] [int32_four]).1.writeData 4
          (text "<") int32_1_2).2 = text "<"
        ∧ ((RawBinaryAppendedWriter.writeDataAll 4 {} [] [int32_four]).1.writeData 4
            (text "<") int32_1_2).1.appendedData
          = (RawBinaryAppendedWriter.writeDataAll 4 {} [] [int32_four]).1.appendedData
            ++ [(int32_1_2.bytes, int32_1_2.n * int32_1_2.elemSize)])) :=
  ⟨by decide,
   appended_writeData_defers 4 (Base64BinaryAppendedWriter.writeDataAll 4 {} [] [int32_four]).1
     (RawBinaryAppendedWriter.writeDataAll 4 {} [] [int32_four]).1 (text "<") int32_1_2
     (by decide)⟩

/-! ## C16: the flush of the inline writers -/

/-- C16: on `AsciiWriter` and on `Base64BinaryWriter`, `writeAppended` leaves every stream
as it is, so it writes zero bytes, and `appendedAttributes` returns the empty attribute
set. -/
theorem inline_writeAppended_writes_nothing (w : AsciiWriter) (b : Base64BinaryWriter)
    (output : Sink) :
    ((w.writeAppended output).2 = output ∧ (w.writeAppended output).2.length = output.length
      ∧ w.appendedAttributes.2 = [])
    ∧ ((b.writeAppended output).2 = output
      ∧ (b.writeAppended output).2.length = output.length
      ∧ b.appendedAttributes.2 = []) :=
  ⟨⟨rfl, rfl, rfl⟩, ⟨rfl, rfl, rfl⟩⟩

/-! ## Lemmas: the Ascii writer -/

theorem load_sChar_range (v : Int) :
    -128 ≤ CType.load .sChar v ∧ CType.load .sChar v ≤ 127 := by
  simp only [CType.load, CType.isSigned, CType.sizeof, if_true, toSigned]
  norm_num
  omega

theorem toSigned_32_load_sChar (v : Int) :
    toSigned 32 (CType.load .sChar v) = CType.load .sChar v := by
  have h := load_sChar_range v
  generalize CType.load .sChar v = x at h
  simp only [toSigned]
  norm_num
  omega

theorem writeScalars_const_sChar (floatText : Int → String) (elems : List Int)
    (output : Sink) :
    AsciiWriter.writeScalars floatText ⟨.sChar, true⟩ output elems
      = .ok (output
          ++ elems.flatMap (fun v => text (Int.repr (CType.load .sChar v)) ++ text " ")) := by
  induction elems generalizing output with
  | nil => simp [AsciiWriter.writeScalars]
  | cons v rest ih =>
    simp only [AsciiWriter.writeScalars, if_true, ih, toSigned_32_load_sChar,
      List.flatMap_cons, List.append_assoc]

theorem writeScalars_generic (floatText : Int → String) (T : IteratorType) (v : Int)
    (rest : List Int) (output : Sink) (hkind : T.pointee.hasWriteNumber = false)
    (hT : T ≠ ⟨.sChar, true⟩) :
    AsciiWriter.writeScalars floatText T output (v :: rest) = .error "Invalid data type." := by
  have hw : detail.writeNumber floatText T.pointee (T.pointee.load v)
      = .error "Invalid data type." := by
    cases hp : T.pointee <;> simp [hp, CType.hasWriteNumber] at hkind <;>
      simp [detail.writeNumber]
  simp only [AsciiWriter.writeScalars, if_neg hT, hw]

/-! ## C17: 8-bit signed values on the Ascii writer -/

/-- C17, the code at the failing input: for the array `[65]` of `signed char` handed over
through a pointer to non-const, the promotion to `int` is not reached, the generic
`writeNumber` is called and `AsciiWriter::writeData` throws. Through a pointer to const
every array of `signed char` is written as the decimal numerals of its values, each in
`-128..127`, each followed by a space, and a line feed; `[65]` is written as `65`, not
as the character `A`. Every array of plain `char` is written in the same way, through
the conversion `%hhd`. -/
theorem ascii_signed_char_through_nonconst_pointer (floatText : Int → String)
    (self : AsciiWriter) (output : Sink) (elems : List Int) (pointsToConst : Bool) :
    AsciiWriter.writeData floatText {} [] ⟨⟨.sChar, false⟩, [65]⟩
      = .error "Invalid data type."
    ∧ AsciiWriter.writeData floatText {} [] ⟨⟨.sChar, true⟩, [65]⟩ = .ok ({}, text "65 \n")
    ∧ AsciiWriter.writeData floatText self output ⟨⟨.sChar, true⟩, elems⟩
      = .ok (self, output
          ++ elems.flatMap (fun v => text (Int.repr (CType.load .sChar v)) ++ text " ")
          ++ text "\n")
    ∧ AsciiWriter.writeData floatText self output ⟨⟨.char, pointsToConst⟩, elems⟩
      = .ok (self, output
          ++ elems.flatMap (fun v => text (Int.repr (CType.load .char v)) ++ text " ")
          ++ text "\n")
    ∧ ∀ v : Int, (-128 ≤ CType.load .sChar v ∧ CType.load .sChar v ≤ 127)
        ∧ CType.load .char v = CType.load .sChar v := by
  refine ⟨?_, ?_, ?_, ?_, fun v => ⟨load_sChar_range v, rfl⟩⟩
  · simp only [AsciiWriter.writeData,
      writeScalars_generic floatText ⟨.sChar, false⟩ 65 [] [] rfl (by decide)]
  · simp only [AsciiWriter.writeData, writeScalars_const_sChar]
    decide
  · simp only [AsciiWriter.writeData, writeScalars_const_sChar]
  · simp only [AsciiWriter.writeData,
      writeScalars_canonical floatText ⟨.char, pointsToConst⟩ (by simp)]

/-! ## C18: element kinds without formatter on the Ascii writer -/

/-- C18, counterexample: an array of `float` without elements is written as a line feed
and nothing is thrown; and the array `[65]` of `signed char`, a kind `writeNumber` has no
specialisation for, is written as `65` when handed over through a pointer to const. -/
theorem ascii_unsupported_kind_counterexample :
    AsciiWriter.writeData (fun _ => "") {} [] ⟨⟨.float, true⟩, []⟩ = .ok ({}, text "\n")
    ∧ CType.hasWriteNumber .float = false
    ∧ AsciiWriter.writeData (fun _ => "") {} [] ⟨⟨.sChar, true⟩, [65]⟩
      = .ok ({}, text "65 \n")
    ∧ CType.hasWriteNumber .sChar = false := by
  decide

/-- C18, amended: for every array with at least one element whose element kind has no
`writeNumber` specialisation and is not `signed char`, `AsciiWriter::writeData` fails
with the `Invalid data type.` error: the first scalar already reaches the generic
`writeNumber`, before anything is written for the array. For an array of such a kind
without elements it writes the line feed and does not fail. -/
theorem ascii_unsupported_kind_fails (floatText : Int → String) (self : AsciiWriter)
    (output : Sink) (a : NumArray)
    (hkind : a.TIteratorType.pointee.hasWriteNumber = false)
    (hs : a.TIteratorType.pointee ≠ .sChar) (hne : a.elems ≠ []) :
    self.writeData floatText output a = .error "Invalid data type."
    ∧ (∀ v : Int, detail.writeNumber floatText a.TIteratorType.pointee v
        = .error "Invalid data type.")
    ∧ self.writeData floatText output ⟨a.TIteratorType, []⟩
      = .ok (self, output ++ text "\n") := by
  obtain ⟨T, elems⟩ := a
  simp only at hkind hs hne
  have hT : T ≠ ⟨.sChar, true⟩ := fun h => hs (by rw [h])
  refine ⟨?_, ?_, ?_⟩
  · cases elems with
    | nil => exact absurd rfl hne
    | cons v rest =>
      simp only [AsciiWriter.writeData, writeScalars_generic floatText T v rest output hkind hT]
  · intro v
    cases hp : T.pointee <;> simp [hp, CType.hasWriteNumber] at hkind <;>
      first
      | exact absurd hp hs
      | simp [detail.writeNumber]
  · simp only [AsciiWriter.writeData, AsciiWriter.writeScalars]

/-- C18, witness: the array `[0]` of `float`. -/
theorem ascii_unsupported_kind_fails_witness :
    ((⟨⟨.float, true⟩, [0]⟩ : NumArray).TIteratorType.pointee.hasWriteNumber = false
      ∧ (⟨⟨.float, true⟩, [0]⟩ : NumArray).TIteratorType.pointee ≠ .sChar
      ∧ (⟨⟨.float, true⟩, [0]⟩ : NumArray).elems ≠ [])
    ∧ (({} : AsciiWriter).writeData (fun _ => "") [] ⟨⟨.float, true⟩, [0]⟩
        = .error "Invalid data type."
      ∧ (∀ v : Int, detail.writeNumber (fun _ => "")
          (⟨⟨.float, true⟩, [0]⟩ : NumArray).TIteratorType.pointee v
          = .error "Invalid data type.")
      ∧ ({} : AsciiWriter).writeData (fun _ => "") []
          ⟨(⟨⟨.float, true⟩, [0]⟩ : NumArray).TIteratorType, []⟩
        = .ok ({}, [] ++ text "\n")) :=
  ⟨by decide,
   ascii_unsupported_kind_fails (fun _ => "") {} [] ⟨⟨.float, true⟩, [0]⟩ (by decide)
     (by decide) (by decide)⟩

/-! ## C19: Base64-Inline and Base64-Appended on one array -/

/-- C19: for every array whose byte size fits `HeaderType`, the stream after
`Base64BinaryWriter::writeData` is the stream after the array alone was declared with
`writeData` on a fresh `Base64BinaryAppendedWriter` and flushed with `writeAppended`:
both write the same bytes, one base64 run over length and payload, and a line feed. -/
theorem base64_inline_agrees_with_appended (hw : Nat) (self : Base64BinaryWriter)
    (output : Sink) (a : NumArray) (hfit : a.fitsHeaderType hw) :
    (self.writeData hw output a).2
      = (Base64BinaryAppendedWriter.writeAppended hw
          (({} : Base64BinaryAppendedWriter).writeData hw output a).1
          (({} : Base64BinaryAppendedWriter).writeData hw output a).2).2
    ∧ (self.writeData hw output a).2
      = output ++ base64Run (memBytes hw (a.n * a.elemSize) ++ a.bytes) ++ text "\n" := by
  have h := transcode_two_parts output (memBytes hw (a.n * a.elemSize)) a.bytes
  have hinline : (self.writeData hw output a).2
      = output ++ base64Run (memBytes hw (a.n * a.elemSize) ++ a.bytes) ++ text "\n" := by
    simp only [Base64BinaryWriter.writeData, toHeaderType_of_fits hw a hfit]
    exact congrArg (· ++ text "\n") h
  have htake : a.bytes.take (a.n * a.elemSize) = a.bytes := by
    rw [← length_bytes a, List.take_length]
  refine ⟨?_, hinline⟩
  rw [hinline]
  simp only [Base64BinaryAppendedWriter.writeAppended, Base64BinaryAppendedWriter.writeData,
    List.nil_append, List.foldl_cons, List.foldl_nil, base64_writeRecord_eq,
    toHeaderType_of_fits hw a hfit, htake]

/-- C19, witness: the array `[1, 2]` of `int` with a 4-byte header; both ways write
`CAAAAAEAAAACAAAA` and a line feed. -/
theorem base64_inline_agrees_with_appended_witness :
    int32_1_2.fitsHeaderType 4
    ∧ ((({} : Base64BinaryWriter).writeData 4 [] int32_1_2).2
        = (Base64BinaryAppendedWriter.writeAppended 4
            (({} : Base64BinaryAppendedWriter).writeData 4 [] int32_1_2).1
            (({} : Base64BinaryAppendedWriter).writeData 4 [] int32_1_2).2).2
      ∧ (({} : Base64BinaryWriter).writeData 4 [] int32_1_2).2
        = [] ++ base64Run (memBytes 4 (int32_1_2.n * int32_1_2.elemSize) ++ int32_1_2.bytes)
          ++ text "\n")
    ∧ (Base64BinaryAppendedWriter.writeAppended 4
        (({} : Base64BinaryAppendedWriter).writeData 4 [] int32_1_2).1
        (({} : Base64BinaryAppendedWriter).writeData 4 [] int32_1_2).2).2
      = text "CAAAAAEAAAACAAAA\n" :=
  ⟨by decide, base64_inline_agrees_with_appended 4 {} [] int32_1_2 (by decide), by decide⟩

end vtu11
